import Mathlib

/-!
Shallow embedding of the secret-reference resolution pipeline of the
bank-vaults `vault-sdk` repository (package `injector/bao`, file
`injector.go`), together with theorems settling the frozen claims about it.

Modelling conventions:
* Go strings are Lean `String`s; character-level operations go through
  `String.data` (a `List Char`).
* Go maps that the code iterates over (`references`, the transit secret set)
  are modelled as association lists iterated in list order; Go map iteration
  order is unspecified, and none of the claims depend on it.
* The collaborators that live outside the repository (the vault RPC client,
  the transit engine's `IsEncrypted`, the templater, `cast.ToStringE`,
  JSON unmarshalling) are fields of an `Env` record, i.e. parameters of the
  model, since their code is not part of this package.
* Go runtime panics (integer divide by zero, index out of range) are modelled
  explicitly by the `GoPanic` type so that `paginate`'s partiality is visible.
-/

/-- Characters written by code point to stay clear of brace-sensitive
string handling: `lbraceCh` is `{` and `rbraceCh` is `}`. -/
def lbraceCh : Char := Char.ofNat 123

/-- The `}` character. -/
def rbraceCh : Char := Char.ofNat 125

/-- The `'` character (used in the `key '<key>' not found` message). -/
def squoteCh : Char := Char.ofNat 39

/-- `"'"` as a string. -/
def squoteStr : String := String.mk [squoteCh]

/-- Association-list lookup, modelling Go map indexing (`m[k]`). -/
def alLookup (l : List (String × α)) (k : String) : Option α :=
  (l.find? (fun p => decide (p.1 = k))).map (·.2)

/-- Association-list insert, modelling Go map assignment (`m[k] = v`). -/
def alInsert (l : List (String × α)) (k : String) (v : α) : List (String × α) :=
  if (l.find? (fun p => decide (p.1 = k))).isSome then
    l.map (fun p => if p.1 = k then (k, v) else p)
  else l ++ [(k, v)]

/-- Insertion into the deduplicating secret set (`map[string]bool` used as a
set), keeping first-insertion order. -/
def insertSet (l : List String) (x : String) : List String :=
  if x ∈ l then l else l ++ [x]

/-- `strings.HasPrefix s pat` with the pattern given as a character list. -/
def hasPreL (s : String) (pat : List Char) : Bool :=
  pat.isPrefixOf s.data

/-- `strings.TrimPrefix s pat` with the pattern given as a character list. -/
def trimPreL (s : String) (pat : List Char) : String :=
  if hasPreL s pat then String.mk (s.data.drop pat.length) else s

/-! ## `paginate` (injector.go lines 98–112)

Go source:
```
func paginate(secrets []string, batchSize int) [][]string {
    transitSecrets := [][]string{}
    for i := range secrets {
        if i%batchSize == 0 {
            transitSecrets = append(transitSecrets, []string{})
        }
        index := i / batchSize
        transitSecrets[index] = append(transitSecrets[index], secrets[i])
    }
    return transitSecrets
}
```
`batchSize` is a Go `int`; `i` is a nonnegative index.  Go `%` takes the sign
of the dividend and Go `/` truncates toward zero, so for `i ≥ 0` we have
`i % b = i % |b|` and `i / b = sign b * (i / |b|)`.  A zero `batchSize`
panics with a division by zero at `i = 0`; a negative index panics with an
index-out-of-range. -/

/-- Go runtime panics that `paginate` can raise. -/
inductive GoPanic where
  | divByZero
  | indexOutOfRange
deriving DecidableEq, Repr

/-- Go `i % b` for `i ≥ 0` (sign of the dividend), assuming `b ≠ 0`. -/
def goModNat (i : Nat) (b : Int) : Nat := i % b.natAbs

/-- Go `i / b` for `i ≥ 0` (truncation toward zero), assuming `b ≠ 0`. -/
def goDivNat (i : Nat) (b : Int) : Int :=
  if 0 ≤ b then ((i / b.natAbs : Nat) : Int) else -((i / b.natAbs : Nat) : Int)

/-- `transitSecrets[index] = append(transitSecrets[index], s)` once the bound
check has passed. -/
def setChunk (acc : List (List String)) (idx : Nat) (s : String) : List (List String) :=
  acc.set idx (acc.getD idx [] ++ [s])

/-- The loop of `paginate`, with the element index `i` and the accumulated
`transitSecrets` made explicit. -/
def paginateAux (b : Int) : List String → Nat → List (List String) →
    Except GoPanic (List (List String))
  | [], _, acc => .ok acc
  | s :: rest, i, acc =>
    if b = 0 then .error .divByZero
    else
      let acc' := if goModNat i b = 0 then acc ++ [[]] else acc
      let idx := goDivNat i b
      if 0 ≤ idx ∧ idx.toNat < acc'.length then
        paginateAux b rest (i + 1) (setChunk acc' idx.toNat s)
      else .error .indexOutOfRange

/-- `paginate(secrets, batchSize)`, returning the chunk list or the Go panic
the loop would raise. -/
def paginate (secrets : List String) (batchSize : Int) : Except GoPanic (List (List String)) :=
  paginateAux batchSize secrets 0 []

/-! ## `strings.SplitN(valuePath, "#", 3)` (injector.go line 274)

Go's `SplitN(s, sep, n)` with `n > 0` yields at most `n` substrings, the last
one holding the unsplit remainder; `SplitN("", sep, n) = [""]`. -/

/-- Split a character list at the first occurrence of `c`, if any. -/
def breakAt (c : Char) : List Char → Option (List Char × List Char)
  | [] => none
  | x :: xs =>
    if x = c then some ([], xs)
    else (breakAt c xs).map (fun p => (x :: p.1, p.2))

/-- The recursion of `strings.SplitN` on character lists (limit `n ≥ 1`). -/
def splitNAux (c : Char) : Nat → List Char → List (List Char)
  | 0, _ => []
  | 1, cs => [cs]
  | n + 2, cs =>
    match breakAt c cs with
    | none => [cs]
    | some (pre, post) => pre :: splitNAux c (n + 1) post

/-- `strings.SplitN(s, "#", n)`. -/
def goSplitHash (s : String) (n : Nat) : List String :=
  (splitNAux '#' n s.data).map String.mk

/-- The reference-body parser of `InjectSecretsFromBaoWithContext`
(injector.go lines 274–289): split the body on at most two `#`, fail when
only one segment results, default the third segment to `-1` (read) or the
empty JSON object (write). -/
def parseRefBody (update : Bool) (valuePath : String) :
    Except String (String × String × String) :=
  let split := goSplitHash valuePath 3
  let path := split.getD 0 ""
  if split.length < 2 then .error "secret data key or template not defined"
  else
    let key := split.getD 1 ""
    let versionOrData :=
      if split.length = 3 then split.getD 2 ""
      else if update then "\x7b\x7d" else "-1"
    .ok (path, key, versionOrData)

/-! ## `FindInlineBaoDelimiters` (injector.go lines 69, 469–475)

The source applies the fixed pattern `\$\x7b([>]\x7b0,2\x7dbao:.*?#*\x7d?)\x7d`
(Go `regexp`, leftmost non-overlapping matches).  The scanner below models
that engine on this one pattern: a match is `${`, zero to two `>` (greedily),
`bao:`, then the lazy body which closes at the first `}` — except that a `}`
immediately followed by a second `}` is absorbed into the capture group (the
`#*\x7d?` tail of the pattern).  Matches are reported as
(full match, capture group) pairs. -/

/-- Scan the lazy body of an inline span; returns (group tail, rest after the
closing brace). -/
def scanBody : List Char → Option (List Char × List Char)
  | [] => none
  | c :: rest =>
    if c = rbraceCh then
      match rest with
      | c' :: rest' =>
        if c' = rbraceCh then some ([c], rest')
        else some ([], rest)
      | [] => some ([], [])
    else (scanBody rest).map (fun p => (c :: p.1, p.2))

/-- Try to read `bao:` and a body at the current position, with `pre` the
already-consumed `>` arrows. -/
def tryBao (pre : List Char) (cs : List Char) : Option (List Char × List Char) :=
  if ['b', 'a', 'o', ':'].isPrefixOf cs then
    (scanBody (cs.drop 4)).map (fun p => (pre ++ ['b', 'a', 'o', ':'] ++ p.1, p.2))
  else none

/-- Try the inner pattern `[>]\x7b0,2\x7dbao:...` just after a `${`, longest
arrow prefix first (greedy `[>]\x7b0,2\x7d`). -/
def tryInner (cs : List Char) : Option (List Char × List Char) :=
  (match cs with
   | '>' :: '>' :: rest => tryBao ['>', '>'] rest
   | _ => none) <|>
  (match cs with
   | '>' :: rest => tryBao ['>'] rest
   | _ => none) <|>
  tryBao [] cs

/-- Left-to-right scan for non-overlapping matches; `fuel` bounds the number
of steps (every step consumes at least one character, so `length + 1` fuel is
always enough). -/
def findSpansAux : Nat → List Char → List (String × String)
  | 0, _ => []
  | _ + 1, [] => []
  | fuel + 1, c :: rest =>
    if c = '$' then
      match rest with
      | c' :: rest2 =>
        if c' = lbraceCh then
          match tryInner rest2 with
          | some (g, r) =>
            (String.mk ('$' :: lbraceCh :: (g ++ [rbraceCh])), String.mk g) :: findSpansAux fuel r
          | none => findSpansAux fuel (c' :: rest2)
        else findSpansAux fuel (c' :: rest2)
      | [] => []
    else findSpansAux fuel rest

/-- `FindInlineBaoDelimiters(value)`: all matches of the inline-mutation
pattern, as (full match, capture group) pairs. -/
def findInlineBaoDelimiters (value : String) : List (String × String) :=
  findSpansAux (value.data.length + 1) value.data

/-- `HasInlineBaoDelimiters(value)`. -/
def hasInlineBaoDelimiters (value : String) : Bool :=
  decide (findInlineBaoDelimiters value ≠ [])

/-! ## `strings.ReplaceAll` -/

/-- Non-overlapping left-to-right replacement on character lists; `fuel`
bounds the steps (each step consumes at least one character). -/
def raAux (pat repl : List Char) : Nat → List Char → List Char
  | 0, cs => cs
  | _ + 1, [] => []
  | fuel + 1, c :: rest =>
    if pat ≠ [] ∧ pat.isPrefixOf (c :: rest) then
      repl ++ raAux pat repl fuel ((c :: rest).drop pat.length)
    else c :: raAux pat repl fuel rest

/-- `strings.ReplaceAll(s, pat, repl)` (the model never calls it with an
empty pattern; an empty pattern leaves `s` unchanged here). -/
def replaceAll (s pat repl : String) : String :=
  String.mk (raAux pat.data repl.data (s.data.length + 1) s.data)

/-! ## Secret values and the external `cast` collaborator -/

/-- A Go `interface\x7b\x7d` value as it occurs in secret data maps. -/
inductive GoVal where
  | str (s : String)
  | num (n : Int)
  | boolean (b : Bool)
  | null
  | obj (fields : List (String × GoVal))

/-- `cast.ToStringE` (spf13/cast, an external collaborator): scalars cast to
their string form, maps do not. -/
def castToStringE : GoVal → Except String String
  | .str s => .ok s
  | .num n => .ok (toString n)
  | .boolean b => .ok (toString b)
  | .null => .ok ""
  | .obj _ => .error "unable to cast to string"

/-- `cast.ToStringMap` (external collaborator): returns the map, or the empty
map when the value is not a map (the non-erroring variant). -/
def castToStringMap : GoVal → List (String × GoVal)
  | .obj fields => fields
  | _ => []

/-- The shape of a non-nil `*baoapi.Secret` as far as the injector reads it. -/
structure RawSecret where
  data : List (String × GoVal)
  leaseDuration : Int
  warnings : List String

/-! ## The injector's configuration, state and collaborators -/

/-- `Config` (injector.go lines 40–46). -/
structure Config where
  transitKeyID : String
  transitPath : String
  transitBatchSize : Int
  ignoreMissingSecrets : Bool
  daemonMode : Bool
deriving DecidableEq, Repr

/-- The mutable caches of `SecretInjector` (injector.go lines 48–56).
`transitCache` maps ciphertext to plaintext; `secretCache` maps
`path#versionOrData` to the decoded attribute map. -/
structure InjSt where
  transitCache : List (String × String)
  secretCache : List (String × List (String × GoVal))

/-- A fresh injector state (`NewSecretInjector`). -/
def initSt : InjSt := ⟨[], []⟩

/-- External collaborators of the injector: the transit engine, the raw
vault client (logical read/write, token), the templater, JSON decoding and
the secret renewer.  Their implementations live outside this package, so the
model takes them as parameters. -/
structure Env where
  isEncrypted : String → Bool
  decryptBatch : List String → List (String × String) × Option String
  decryptOne : String → Except String String
  logicalRead : String → String → Except String (Option RawSecret)
  logicalWrite : String → List (String × GoVal) → Except String (Option RawSecret)
  jsonUnmarshal : String → Except String (List (String × GoVal))
  renew : String → RawSecret → Except String Unit
  isGoTemplate : String → Bool
  render : String → List (String × GoVal) → Except String String
  clientToken : String

/-- Everything observable about one run: sink invocations, decrypt RPCs
(batched and single) and logical store reads/writes, in order. -/
structure Trace where
  sinks : List (String × String)
  batchCalls : List (List String)
  singleCalls : List String
  storeReads : List (String × String)
  storeWrites : List (String × String)
deriving DecidableEq, Repr

/-- The empty trace. -/
def Trace.nil : Trace := ⟨[], [], [], [], []⟩

/-- Trace concatenation in execution order. -/
def Trace.app (t u : Trace) : Trace :=
  ⟨t.sinks ++ u.sinks, t.batchCalls ++ u.batchCalls, t.singleCalls ++ u.singleCalls,
   t.storeReads ++ u.storeReads, t.storeWrites ++ u.storeWrites⟩

/-- A trace holding one sink invocation. -/
def Trace.sink1 (n v : String) : Trace := ⟨[(n, v)], [], [], [], []⟩

/-- A trace holding one batched-decrypt RPC. -/
def Trace.batch1 (l : List String) : Trace := ⟨[], [l], [], [], []⟩

/-- A trace holding one single-decrypt RPC. -/
def Trace.single1 (c : String) : Trace := ⟨[], [], [c], [], []⟩

/-- A trace holding one logical read. -/
def Trace.read1 (p v : String) : Trace := ⟨[], [], [], [(p, v)], []⟩

/-- A trace holding one logical write. -/
def Trace.write1 (p v : String) : Trace := ⟨[], [], [], [], [(p, v)]⟩

/-- Drop the sink events of a trace but keep the external calls; used when a
nested `GetDataFromBao` run delivers into its own local map rather than the
caller's sink. -/
def Trace.calls (t : Trace) : Trace := { t with sinks := [] }

/-- How the model leaves a run: a Go error value, a runtime panic, or (model
artefact) recursion fuel exhaustion, which no theorem's run reaches. -/
inductive RunErr where
  | goErr (msg : String)
  | crash (p : GoPanic)
  | fuelOut
deriving DecidableEq, Repr

/-- Result of `preprocessTransitSecrets`: the (possibly pruned) references,
the new state, the trace, and the error if any. -/
structure PreOut where
  refs : List (String × String)
  st : InjSt
  tr : Trace
  err : Option RunErr

/-- Result of a full `InjectSecretsFromBao` run. -/
structure RunOut where
  st : InjSt
  tr : Trace
  err : Option RunErr

/-! ## `FetchTransitSecretsWithContext` (injector.go lines 75–96)

Note the source behaviour that matters here: a failure of the batched
decrypt RPC is only *logged* (line 86) and the function returns `out, nil`
(line 95) — the decrypt error is never propagated to the caller.  The only
error it can return is the empty-transit-key-ID configuration error. -/

/-- `FetchTransitSecretsWithContext`: returns (decrypt output, new state,
batch RPCs issued, returned error). -/
def fetchTransitSecrets (env : Env) (cfg : Config) (st : InjSt) (secrets : List String) :
    List (String × String) × InjSt × List (List String) × Option String :=
  if cfg.transitKeyID = "" then
    ([], st, [], some "found encrypted variable, but transit key ID is empty: todo")
  else if secrets = [] then ([], st, [], none)
  else
    let out := (env.decryptBatch secrets).1
    -- the RPC error (env.decryptBatch …).2 is logged and dropped by the source
    let st' := { st with transitCache := out.foldl (fun c p => alInsert c p.1 p.2) st.transitCache }
    (out, st', [secrets], none)

/-- The fetch loop of `preprocessTransitSecrets` (injector.go lines 141–150):
one `FetchTransitSecrets` call per page; an error is fatal unless the
ignore-missing policy is enabled, in which case it is logged and skipped. -/
def fetchLoop (env : Env) (cfg : Config) : List (List String) → InjSt →
    InjSt × List (List String) × Option String
  | [], st => (st, [], none)
  | sec :: rest, st =>
    let r := fetchTransitSecrets env cfg st sec
    match r.2.2.2 with
    | some e =>
      if ¬ cfg.ignoreMissingSecrets then (r.2.1, r.2.2.1, some ("failed to decrypt secret: " ++ e))
      else
        let k := fetchLoop env cfg rest r.2.1
        (k.1, r.2.2.1 ++ k.2.1, k.2.2)
    | none =>
      let k := fetchLoop env cfg rest r.2.1
      (k.1, r.2.2.1 ++ k.2.1, k.2.2)

/-- The secret-set collection of `preprocessTransitSecrets` (injector.go
lines 116–129): for every reference value, add the inline capture groups that
look encrypted, or the whole value when it looks encrypted. -/
def collectSecretSet (env : Env) (refs : List (String × String)) : List String :=
  refs.foldl
    (fun acc p =>
      if findInlineBaoDelimiters p.2 ≠ [] then
        (findInlineBaoDelimiters p.2).foldl
          (fun acc2 m => if env.isEncrypted m.2 then insertSet acc2 m.2 else acc2) acc
      else if env.isEncrypted p.2 then insertSet acc p.2
      else acc)
    []

/-- Filtering out already-cached ciphertexts (injector.go lines 132–139). -/
def uncachedSecrets (st : InjSt) (set : List String) : List String :=
  set.filter (fun k => (alLookup st.transitCache k).isNone)

/-- The injection loop of `preprocessTransitSecrets` (injector.go lines
152–183), returning (remaining references, sink invocations).  The source
behaviour is kept verbatim: for an inline value each capture's *full match*
(`m.1`, delimiters included) is looked up in the transit cache, the
replacement is applied to the original `value` (not to the accumulator), and
when anything changed the *original* `value` is injected and the entry
deleted; for a plain encrypted value a cache hit is injected without
deleting the entry. -/
def preprocessInjectLoop (env : Env) (st : InjSt) :
    List (String × String) → List (String × String) × List (String × String)
  | [] => ([], [])
  | (name, value) :: rest =>
    let k := preprocessInjectLoop env st rest
    if findInlineBaoDelimiters value ≠ [] then
      let newValue := (findInlineBaoDelimiters value).foldl
        (fun nv m =>
          match alLookup st.transitCache m.1 with
          | some v => replaceAll value m.1 v
          | none => nv)
        value
      if value ≠ newValue then (k.1, (name, value) :: k.2)
      else ((name, value) :: k.1, k.2)
    else if env.isEncrypted value then
      match alLookup st.transitCache value with
      | some v => ((name, value) :: k.1, (name, v) :: k.2)
      | none => ((name, value) :: k.1, k.2)
    else ((name, value) :: k.1, k.2)

/-- `preprocessTransitSecrets` (injector.go lines 114–186). -/
def preprocessTransitSecrets (env : Env) (cfg : Config) (st : InjSt)
    (refs : List (String × String)) : PreOut :=
  let secrets := uncachedSecrets st (collectSecretSet env refs)
  match paginate secrets cfg.transitBatchSize with
  | .error p => ⟨refs, st, Trace.nil, some (.crash p)⟩
  | .ok pages =>
    let f := fetchLoop env cfg pages st
    match f.2.2 with
    | some e => ⟨refs, f.1, { Trace.nil with batchCalls := f.2.1 }, some (.goErr e)⟩
    | none =>
      let inj := preprocessInjectLoop env f.1 refs
      ⟨inj.1, f.1, { Trace.nil with batchCalls := f.2.1, sinks := inj.2 }, none⟩

/-! ## `readBaoPath` (injector.go lines 385–463) -/

/-- Renewal registration plus v1/v2 response normalization (injector.go
lines 409–462).  Warnings and the destroyed/deleted-version checks only log,
so they do not appear in the result. -/
def normalizeSecret (env : Env) (cfg : Config) (path : String) (sec : Option RawSecret) :
    Except String (Option (List (String × GoVal))) :=
  let renewRes : Except String Unit :=
    match sec with
    | some s =>
      if cfg.daemonMode ∧ 0 < s.leaseDuration then
        match env.renew path s with
        | .error e => .error ("secret renewal can't be established: " ++ e)
        | .ok _ => .ok ()
      else .ok ()
    | none => .ok ()
  match renewRes with
  | .error e => .error e
  | .ok _ =>
    match sec with
    | none => .ok none
    | some s =>
      match alLookup s.data "data" with
      | some v2 =>
        let secretData := castToStringMap v2
        match alLookup s.data "metadata" with
        | none => .error "metadata key not found or is nil in secret"
        | some .null => .error "metadata key not found or is nil in secret"
        | some (.obj _) => .ok (some secretData)
        | some _ => .error "metadata has an unexpected type"
      | none => .ok (some s.data)

/-- `readBaoPath(path, versionOrData, update)`: the write path unmarshals the
JSON payload and writes; the read path reads the requested version.  Returns
the normalized attribute map (or `none` for a nil secret) and the store
calls made. -/
def readBaoPath (env : Env) (cfg : Config) (path versionOrData : String) (update : Bool) :
    Except String (Option (List (String × GoVal))) × Trace :=
  if update then
    match env.jsonUnmarshal versionOrData with
    | .error e => (.error ("failed to unmarshal data for writing: " ++ e), Trace.nil)
    | .ok payload =>
      match env.logicalWrite path payload with
      | .error e =>
        (.error ("failed to write secret to path: " ++ path ++ ": " ++ e), Trace.write1 path versionOrData)
      | .ok sec => (normalizeSecret env cfg path sec, Trace.write1 path versionOrData)
  else
    match env.logicalRead path versionOrData with
    | .error e =>
      (.error ("failed to read secret from path: " ++ path ++ ": " ++ e), Trace.read1 path versionOrData)
    | .ok sec => (normalizeSecret env cfg path sec, Trace.read1 path versionOrData)

/-! ## The main loop of `InjectSecretsFromBaoWithContext` (lines 192–340) -/

/-- Key resolution against a fetched attribute map (injector.go lines
318–336): a template key is rendered by the external templater, a plain key
is looked up literally and cast to a string. -/
def resolveKey (env : Env) (name path key : String) (data : List (String × GoVal))
    (st : InjSt) (tr0 : Trace) : InjSt × Trace × Option RunErr :=
  if env.isGoTemplate key then
    match env.render key data with
    | .error e =>
      (st, tr0, some (.goErr ("failed to interpolate template key with bao data: " ++ key ++ ": " ++ e)))
    | .ok v => (st, Trace.app tr0 (Trace.sink1 name v), none)
  else
    match alLookup data key with
    | some v =>
      match castToStringE v with
      | .error e => (st, tr0, some (.goErr ("value can't be cast to a string: " ++ e)))
      | .ok s => (st, Trace.app tr0 (Trace.sink1 name s), none)
    | none =>
      (st, tr0, some (.goErr ("key " ++ squoteStr ++ key ++ squoteStr ++ " not found under path: " ++ path)))

/-- The path/key/version part of one main-loop iteration (injector.go lines
274–336): parse the body, consult the secret cache, read or write through
`readBaoPath` on a miss, apply the missing-path policy, store into the
cache, then resolve the key. -/
def resolvePathRef (env : Env) (cfg : Config) (name : String) (update : Bool)
    (valuePath : String) (st : InjSt) : InjSt × Trace × Option RunErr :=
  match parseRefBody update valuePath with
  | .error e => (st, Trace.nil, some (.goErr e))
  | .ok (path, key, versionOrData) =>
    let cacheKey := path ++ "#" ++ versionOrData
    match alLookup st.secretCache cacheKey with
    | some data =>
      let st' := { st with secretCache := alInsert st.secretCache cacheKey data }
      resolveKey env name path key data st' Trace.nil
    | none =>
      let r := readBaoPath env cfg path versionOrData update
      match r.1 with
      | .error e => (st, r.2, some (.goErr e))
      | .ok none =>
        if ¬ cfg.ignoreMissingSecrets then (st, r.2, some (.goErr ("path not found: " ++ path)))
        else (st, r.2, none)
      | .ok (some data) =>
        let st' := { st with secretCache := alInsert st.secretCache cacheKey data }
        resolveKey env name path key data st' r.2

/-- The body of one non-inline main-loop iteration after write-marker
stripping (injector.go lines 222–336): literal passthrough, the reserved
`BAO_TOKEN`/`login` pair, the transit-ciphertext branch and finally the
path reference. -/
def processBaoValue (env : Env) (cfg : Config) (name : String) (update : Bool)
    (value1 : String) (st : InjSt) : InjSt × Trace × Option RunErr :=
  if ¬ hasPreL value1 ['b', 'a', 'o', ':'] then (st, Trace.sink1 name value1, none)
  else
    let valuePath := trimPreL value1 ['b', 'a', 'o', ':']
    if name = "BAO_TOKEN" ∧ valuePath = "login" then
      (st, Trace.sink1 name env.clientToken, none)
    else if env.isEncrypted value1 then
      if cfg.transitKeyID = "" then
        (st, Trace.nil, some (.goErr ("found encrypted variable, but transit key ID is empty: " ++ name)))
      else
        match alLookup st.transitCache value1 with
        | some v => (st, Trace.sink1 name v, none)
        | none =>
          match env.decryptOne value1 with
          | .error e =>
            if ¬ cfg.ignoreMissingSecrets then
              (st, Trace.single1 value1, some (.goErr ("failed to decrypt variable: " ++ name ++ ": " ++ e)))
            else (st, Trace.single1 value1, none)
          | .ok out =>
            ({ st with transitCache := alInsert st.transitCache value1 out },
             Trace.app (Trace.single1 value1) (Trace.sink1 name out), none)
    else resolvePathRef env cfg name update valuePath st

/-- One non-inline main-loop iteration (injector.go lines 214–336): write
marker stripping, then `processBaoValue`. -/
def processPlain (env : Env) (cfg : Config) (name value : String) (st : InjSt) :
    InjSt × Trace × Option RunErr :=
  let update := hasPreL value ['>', '>', 'b', 'a', 'o', ':']
  let value1 := if update then trimPreL value ['>', '>'] else value
  processBaoValue env cfg name update value1 st

/-- The per-match loop of the inline branch (injector.go lines 200–208): a
nested `GetDataFromBaoWithContext` resolves the capture group, and each
resolved value replaces the full match inside the working value.  `recurse`
is the nested run; its sink events feed the local `baoData` map and are not
forwarded to the caller's sink, but its external calls are real. -/
def inlineFold (recurse : String → String → InjSt → InjSt × Trace × Option RunErr)
    (name : String) : List (String × String) → String → InjSt → Trace →
    String × InjSt × Trace × Option RunErr
  | [], value, st, tr => (value, st, tr, none)
  | m :: ms, value, st, tr =>
    let r := recurse name m.2 st
    match r.2.2 with
    | some e => (value, r.1, Trace.app tr (Trace.calls r.2.1), some e)
    | none =>
      let mapData := r.2.1.sinks.foldl (fun acc p => alInsert acc p.1 p.2) []
      let value' := mapData.foldl (fun v p => replaceAll v m.1 p.2) value
      inlineFold recurse name ms value' r.1 (Trace.app tr (Trace.calls r.2.1))

/-- One main-loop iteration (injector.go lines 198–336): the inline branch
resolves every span through a nested run and injects the substituted value;
everything else goes through `processPlain`. -/
def processEntry (env : Env) (cfg : Config)
    (recurse : String → String → InjSt → InjSt × Trace × Option RunErr)
    (name value : String) (st : InjSt) : InjSt × Trace × Option RunErr :=
  if findInlineBaoDelimiters value ≠ [] then
    let r := inlineFold recurse name (findInlineBaoDelimiters value) value st Trace.nil
    match r.2.2.2 with
    | some e => (r.2.1, r.2.2.1, some e)
    | none => (r.2.1, Trace.app r.2.2.1 (Trace.sink1 name r.1), none)
  else processPlain env cfg name value st

/-- The main loop over the remaining references. -/
def mainLoopWith (env : Env) (cfg : Config)
    (recurse : String → String → InjSt → InjSt × Trace × Option RunErr) :
    List (String × String) → InjSt → InjSt × Trace × Option RunErr
  | [], st => (st, Trace.nil, none)
  | (name, value) :: rest, st =>
    let r := processEntry env cfg recurse name value st
    match r.2.2 with
    | some e => (r.1, r.2.1, some e)
    | none =>
      let k := mainLoopWith env cfg recurse rest r.1
      (k.1, Trace.app r.2.1 k.2.1, k.2.2)

/-- `InjectSecretsFromBaoWithContext` (injector.go lines 192–340): run the
pre-scan, apply its error policy, then run the main loop.  `fuel` bounds the
nesting depth of inline references (each nested `GetDataFromBaoWithContext`
consumes one unit); no run in this development comes near exhausting it. -/
def injectSecretsFromBao (env : Env) (cfg : Config) :
    Nat → List (String × String) → InjSt → RunOut
  | 0, _, st => ⟨st, Trace.nil, some .fuelOut⟩
  | fuel + 1, refs, st =>
    let p := preprocessTransitSecrets env cfg st refs
    match p.err with
    | some (.goErr e) =>
      if ¬ cfg.ignoreMissingSecrets then
        ⟨p.st, p.tr, some (.goErr ("unable to preprocess transit secrets: " ++ e))⟩
      else
        let m := mainLoopWith env cfg
          (fun n v st' =>
            let r := injectSecretsFromBao env cfg fuel [(n, v)] st'
            (r.st, r.tr, r.err))
          p.refs p.st
        ⟨m.1, Trace.app p.tr m.2.1, m.2.2⟩
    | some e => ⟨p.st, p.tr, some e⟩
    | none =>
      let m := mainLoopWith env cfg
        (fun n v st' =>
          let r := injectSecretsFromBao env cfg fuel [(n, v)] st'
          (r.st, r.tr, r.err))
        p.refs p.st
      ⟨m.1, Trace.app p.tr m.2.1, m.2.2⟩

/-- The nested-run closure that the main loop hands to the inline branch
(one `GetDataFromBaoWithContext` per capture group). -/
def injRecurse (env : Env) (cfg : Config) (fuel : Nat) :
    String → String → InjSt → InjSt × Trace × Option RunErr :=
  fun n v st' =>
    ((injectSecretsFromBao env cfg fuel [(n, v)] st').st,
     (injectSecretsFromBao env cfg fuel [(n, v)] st').tr,
     (injectSecretsFromBao env cfg fuel [(n, v)] st').err)

/-- The number of times the transit decrypt collaborator is handed the
ciphertext `c` during a run: occurrences inside batched RPCs plus single
decrypt RPCs. -/
def decryptTouches (tr : Trace) (c : String) : Nat :=
  (tr.batchCalls.map (fun l => l.count c)).sum + tr.singleCalls.count c

deriving instance DecidableEq for Except

/-- Reference chunking: the list split into consecutive pieces of `k`
elements (last piece possibly shorter).  `paginate` computes exactly this
when the batch size is positive (`paginate_eq_chunks`). -/
def chunks (k : Nat) (l : List String) : List (List String) :=
  if l = [] ∨ k = 0 then [] else l.take k :: chunks k (l.drop k)
termination_by l.length
decreasing_by
  rename_i h
  push_neg at h
  have h1 : 0 < l.length := List.length_pos.mpr h.1
  have h2 : 0 < k := Nat.pos_of_ne_zero h.2
  simp only [List.length_drop]
  omega

/-! ## Concrete instances used by counterexample runs and witnesses -/

/-- A transit-looking ciphertext that also carries the scheme prefix, the
shape under which the main loop's transit branch is reachable. -/
def ctOk : String := "bao:v1:C"

/-- A reference value holding one inline span around `ctOk`. -/
def c2val : String := "pre-$\x7bbao:v1:C\x7d-post"

/-- An environment whose batched decrypt succeeds on everything, mapping
every ciphertext to `"plain"`; the remaining collaborators are inert. -/
def envOk : Env := {
  isEncrypted := fun s => decide (s = ctOk)
  decryptBatch := fun l => (l.map (fun c => (c, "plain")), none)
  decryptOne := fun _ => .error "unused"
  logicalRead := fun _ _ => .ok none
  logicalWrite := fun _ _ => .ok none
  jsonUnmarshal := fun _ => .error "unused"
  renew := fun _ _ => .ok ()
  isGoTemplate := fun _ => false
  render := fun _ _ => .error "unused"
  clientToken := "tok" }

/-- An environment whose batched decrypt RPC always fails (returning no
plaintexts and an error) while the single decrypt succeeds. -/
def envBatchDown : Env := { envOk with
  decryptBatch := fun _ => ([], some "connection refused")
  decryptOne := fun _ => .ok "plain" }

/-- A store-backed environment: path `"data"` holds `\x7bk: v\x7d`, every other
path is missing; nothing looks encrypted or templated. -/
def envStore : Env := {
  isEncrypted := fun _ => false
  decryptBatch := fun l => (l.map (fun c => (c, "plain")), none)
  decryptOne := fun _ => .error "unused"
  logicalRead := fun p _ => if p = "data" then .ok (some ⟨[("k", GoVal.str "v")], 0, []⟩) else .ok none
  logicalWrite := fun _ _ => .ok none
  jsonUnmarshal := fun _ => .error "unused"
  renew := fun _ _ => .ok ()
  isGoTemplate := fun _ => false
  render := fun _ _ => .error "unused"
  clientToken := "tok" }

/-- An environment where both the batched and the single decrypt succeed on
everything (mapping to `"plain"`). -/
def envAllOk : Env := { envOk with
  decryptOne := fun _ => .ok "plain" }

/-- Batch size 1, transit key configured, ignore-missing disabled. -/
def cfg1 : Config := ⟨"kid", "transit", 1, false, false⟩

/-- Like `cfg1` with ignore-missing enabled. -/
def cfg1Ignore : Config := ⟨"kid", "transit", 1, true, false⟩

/-- A configuration whose batch size was left at the zero value. -/
def cfg0 : Config := ⟨"kid", "transit", 0, false, false⟩

/-- The per-reference step of `collectSecretSet`. -/
def collectStep (env : Env) (acc : List String) (q : String × String) : List String :=
  if findInlineBaoDelimiters q.2 ≠ [] then
    (findInlineBaoDelimiters q.2).foldl
      (fun acc2 m => if env.isEncrypted m.2 then insertSet acc2 m.2 else acc2) acc
  else if env.isEncrypted q.2 then insertSet acc q.2
  else acc

/-- A scheme-prefixed reference `bao:<p>#<k>` built from the path and key
character lists. -/
def schemeRef (p k : List Char) : String :=
  String.mk ('b' :: 'a' :: 'o' :: ':' :: (p ++ '#' :: k))

/-! # Theorems

## Pagination theory (claims C5 and C10) -/

theorem chunks_nil (k : Nat) : chunks k [] = [] := by
  rw [chunks]
  simp

theorem chunks_cons (k : Nat) (hk : k ≠ 0) (l : List String) (hl : l ≠ []) :
    chunks k l = l.take k :: chunks k (l.drop k) := by
  rw [chunks]
  simp [hl, hk]

theorem chunks_flatten (k : Nat) (hk : k ≠ 0) (l : List String) :
    (chunks k l).flatten = l := by
  generalize hn : l.length = n
  induction n using Nat.strong_induction_on generalizing l with
  | _ n ih =>
    by_cases hl : l = []
    · subst hl
      simp [chunks_nil]
    · rw [chunks_cons k hk l hl]
      rw [List.flatten_cons]
      rw [ih (l.drop k).length (by
        subst hn
        have := List.length_pos.mpr hl
        have := Nat.pos_of_ne_zero hk
        simp only [List.length_drop]
        omega) (l.drop k) rfl]
      exact List.take_append_drop k l

theorem chunks_eq_nil_iff (k : Nat) (hk : k ≠ 0) (l : List String) :
    chunks k l = [] ↔ l = [] := by
  constructor
  · intro h
    by_contra hl
    rw [chunks_cons k hk l hl] at h
    exact List.cons_ne_nil _ _ h
  · intro h
    subst h
    exact chunks_nil k

theorem chunks_dropLast_length (k : Nat) (hk : k ≠ 0) (l : List String) :
    ∀ c ∈ (chunks k l).dropLast, c.length = k := by
  generalize hn : l.length = n
  induction n using Nat.strong_induction_on generalizing l with
  | _ n ih =>
    by_cases hl : l = []
    · subst hl
      simp [chunks_nil]
    · rw [chunks_cons k hk l hl]
      by_cases hd : l.drop k = []
      · rw [hd, chunks_nil]
        simp
      · have hr : chunks k (l.drop k) ≠ [] := by
          rw [Ne, chunks_eq_nil_iff k hk]
          exact hd
        rw [List.dropLast_cons_of_ne_nil hr]
        intro c hc
        rcases List.mem_cons.mp hc with h | h
        · subst h
          have hkl : k < l.length := by
            by_contra hko
            push_neg at hko
            exact hd (List.drop_eq_nil_of_le hko)
          simp only [List.length_take]
          omega
        · exact ih (l.drop k).length (by
            subst hn
            have := List.length_pos.mpr hl
            have := Nat.pos_of_ne_zero hk
            simp only [List.length_drop]
            omega) (l.drop k) rfl c h

theorem chunks_ne_nil (k : Nat) (hk : k ≠ 0) (l : List String) :
    ∀ c ∈ chunks k l, c ≠ [] := by
  generalize hn : l.length = n
  induction n using Nat.strong_induction_on generalizing l with
  | _ n ih =>
    by_cases hl : l = []
    · subst hl
      simp [chunks_nil]
    · rw [chunks_cons k hk l hl]
      intro c hc
      rcases List.mem_cons.mp hc with h | h
      · subst h
        simp only [Ne, List.take_eq_nil_iff]
        push_neg
        exact ⟨hk, hl⟩
      · exact ih (l.drop k).length (by
          subst hn
          have := List.length_pos.mpr hl
          have := Nat.pos_of_ne_zero hk
          simp only [List.length_drop]
          omega) (l.drop k) rfl c h

theorem succ_mod_div_eq (k i : Nat) (hk : 0 < k) (h : i % k + 1 = k) :
    (i + 1) % k = 0 ∧ (i + 1) / k = i / k + 1 := by
  have hdm := Nat.div_add_mod i k
  have hms : k * (i / k + 1) = k * (i / k) + k := Nat.mul_succ k (i / k)
  have h1 : i + 1 = k * (i / k + 1) := by omega
  constructor
  · rw [h1]
    exact Nat.mul_mod_right k _
  · rw [h1]
    exact Nat.mul_div_cancel_left _ hk

theorem succ_mod_div_lt (k i : Nat) (hk : 0 < k) (h : i % k + 1 < k) :
    (i + 1) % k = i % k + 1 ∧ (i + 1) / k = i / k := by
  have hdm := Nat.div_add_mod i k
  have h1 : i + 1 = k * (i / k) + (i % k + 1) := by omega
  constructor
  · rw [h1, Nat.mul_add_mod, Nat.mod_eq_of_lt h]
  · rw [h1, Nat.mul_add_div hk, Nat.div_eq_of_lt h]
    omega

theorem list_set_snoc (acc : List α) (x y : α) :
    (acc ++ [x]).set acc.length y = acc ++ [y] := by
  induction acc with
  | nil => rfl
  | cons a as ih =>
    simp only [List.cons_append, List.length_cons, List.set]
    rw [show (as.append [x]) = as ++ [x] from rfl, ih]

theorem list_getD_snoc (acc : List α) (x d : α) :
    (acc ++ [x]).getD acc.length d = x := by
  induction acc with
  | nil => rfl
  | cons a as ih =>
    simp only [List.cons_append, List.length_cons, List.getD_cons_succ]
    exact ih

theorem paginateAux_cons_pos (k : Nat) (hk : 0 < k) (s : String) (rest : List String)
    (i : Nat) (acc : List (List String)) :
    paginateAux (k : Int) (s :: rest) i acc =
      if i / k < (if i % k = 0 then acc ++ [[]] else acc).length then
        paginateAux (k : Int) rest (i + 1)
          (setChunk (if i % k = 0 then acc ++ [[]] else acc) (i / k) s)
      else .error .indexOutOfRange := by
  simp only [paginateAux]
  rw [if_neg (by exact_mod_cast Nat.pos_iff_ne_zero.mp hk)]
  simp only [goModNat, goDivNat, Int.natAbs_ofNat]
  rw [if_pos (Int.natCast_nonneg k)]
  simp only [Int.natCast_nonneg, true_and, Int.toNat_natCast]

theorem paginateAux_chunks (k : Nat) (hk : 0 < k) :
    ∀ (n : Nat) (l : List String), l.length ≤ n → ∀ (i : Nat) (acc : List (List String)),
      (i % k = 0 → acc.length = i / k →
        paginateAux (k : Int) l i acc = .ok (acc ++ chunks k l)) ∧
      (i % k ≠ 0 → ∀ (acc₀ : List (List String)) (cur : List String),
        acc = acc₀ ++ [cur] → acc₀.length = i / k →
        paginateAux (k : Int) l i acc =
          .ok (acc₀ ++ (cur ++ l.take (k - i % k)) :: chunks k (l.drop (k - i % k)))) := by
  have hkk := Nat.pos_iff_ne_zero.mp hk
  intro n
  induction n with
  | zero =>
    intro l hl i acc
    have hle : l = [] := by
      cases l with
      | nil => rfl
      | cons a as => simp at hl
    subst hle
    constructor
    · intro _ _
      simp [paginateAux, chunks_nil]
    · intro _ acc₀ cur hacc _
      subst hacc
      simp [paginateAux, chunks_nil]
  | succ n ih =>
    intro l hl i acc
    cases l with
    | nil =>
      constructor
      · intro _ _
        simp [paginateAux, chunks_nil]
      · intro _ acc₀ cur hacc _
        subst hacc
        simp [paginateAux, chunks_nil]
    | cons s rest =>
      have hrest : rest.length ≤ n := by
        simp only [List.length_cons] at hl
        omega
      constructor
      · intro hmod hlen
        rw [paginateAux_cons_pos k hk]
        have hca : (if i % k = 0 then acc ++ [[]] else acc) = acc ++ [[]] := if_pos hmod
        rw [hca]
        have hlt : i / k < (acc ++ [[]]).length := by
          simp [← hlen]
        rw [if_pos hlt]
        have hset : setChunk (acc ++ [[]]) (i / k) s = acc ++ [[s]] := by
          rw [← hlen]
          unfold setChunk
          rw [list_getD_snoc, list_set_snoc]
          rfl
        rw [hset]
        by_cases hone : i % k + 1 = k
        · have h1 := succ_mod_div_eq k i hk hone
          have hrec := (ih rest hrest (i + 1) (acc ++ [[s]])).1 h1.1 (by
            simp [h1.2, hlen])
          rw [hrec]
          have hk1 : k = 1 := by omega
          subst hk1
          rw [chunks_cons 1 hkk (s :: rest) (List.cons_ne_nil s rest)]
          simp
        · have hmlt : i % k < k := Nat.mod_lt i hk
          have h1 := succ_mod_div_lt k i hk (by omega)
          have hm1 : (i + 1) % k = 1 := by rw [h1.1, hmod]
          have hrec := (ih rest hrest (i + 1) (acc ++ [[s]])).2 (by rw [hm1]; omega) acc [s]
            rfl (by rw [h1.2, hlen])
          rw [hrec, hm1]
          rw [chunks_cons k hkk (s :: rest) (List.cons_ne_nil s rest)]
          obtain ⟨m, hm⟩ : ∃ m, k = m + 1 := ⟨k - 1, by omega⟩
          subst hm
          rw [List.take_succ_cons, List.drop_succ_cons]
          have hm2 : m + 1 - 1 = m := by omega
          rw [hm2]
          simp
      · intro hmod acc₀ cur hacc hlen
        subst hacc
        rw [paginateAux_cons_pos k hk]
        have hca : (if i % k = 0 then (acc₀ ++ [cur]) ++ [[]] else acc₀ ++ [cur]) = acc₀ ++ [cur] :=
          if_neg hmod
        rw [hca]
        have hlt : i / k < (acc₀ ++ [cur]).length := by
          simp [← hlen]
        rw [if_pos hlt]
        have hset : setChunk (acc₀ ++ [cur]) (i / k) s = acc₀ ++ [cur ++ [s]] := by
          rw [← hlen]
          unfold setChunk
          rw [list_getD_snoc, list_set_snoc]
        rw [hset]
        have hmlt : i % k < k := Nat.mod_lt i hk
        by_cases hone : i % k + 1 = k
        · have h1 := succ_mod_div_eq k i hk hone
          have hrec := (ih rest hrest (i + 1) (acc₀ ++ [cur ++ [s]])).1 h1.1 (by
            simp [h1.2, hlen])
          rw [hrec]
          have hk1 : k - i % k = 1 := by omega
          rw [hk1]
          have ht1 : (s :: rest).take 1 = [s] := rfl
          have hd1 : (s :: rest).drop 1 = rest := rfl
          rw [ht1, hd1]
          simp
        · have h1 := succ_mod_div_lt k i hk (by omega)
          have hm0 : (i + 1) % k ≠ 0 := by
            rw [h1.1]
            omega
          have hrec := (ih rest hrest (i + 1) (acc₀ ++ [cur ++ [s]])).2 hm0 acc₀ (cur ++ [s])
            rfl (by rw [h1.2, hlen])
          rw [hrec, h1.1]
          obtain ⟨m, hm⟩ : ∃ m, k - i % k = m + 1 := ⟨k - i % k - 1, by omega⟩
          have hm2 : k - (i % k + 1) = m := by omega
          rw [hm2, hm]
          rw [List.take_succ_cons, List.drop_succ_cons]
          simp

theorem paginate_eq_chunks (k : Nat) (hk : 0 < k) (l : List String) :
    paginate l (k : Int) = .ok (chunks k l) := by
  have h := (paginateAux_chunks k hk l.length l le_rfl 0 []).1 (Nat.zero_mod k) (by simp)
  simpa [paginate] using h

theorem paginateAux_neg (b : Int) (hb : b < 0) :
    ∀ (l : List String) (i : Nat) (acc : List (List String)),
      1 ≤ i → i ≤ b.natAbs → b.natAbs - i < l.length → 0 < acc.length →
      paginateAux b l i acc = .error .indexOutOfRange := by
  have hbne : b ≠ 0 := hb.ne
  have hA : 0 < b.natAbs := Int.natAbs_pos.mpr hbne
  have hble : ¬ (0 ≤ b) := by omega
  intro l
  induction l with
  | nil =>
    intro i acc _ _ h3 _
    simp at h3
  | cons s rest ih =>
    intro i acc h1 h2 h3 h4
    by_cases hik : i = b.natAbs
    · -- the loop allocates a fresh page and indexes it at -1
      simp only [paginateAux, if_neg hbne, goModNat, goDivNat, if_neg hble]
      have hmod : i % b.natAbs = 0 := by
        rw [hik, Nat.mod_self]
      have hdiv : i / b.natAbs = 1 := by
        rw [hik, Nat.div_self hA]
      simp only [hmod, hdiv]
      simp
    · -- mid-page: index 0, loop continues
      have hilt : i < b.natAbs := by omega
      simp only [paginateAux, if_neg hbne, goModNat, goDivNat, if_neg hble]
      have hmod : i % b.natAbs = i := Nat.mod_eq_of_lt hilt
      have hdiv : i / b.natAbs = 0 := Nat.div_eq_of_lt hilt
      simp only [hmod, hdiv]
      have hine : ¬ (i = 0) := by omega
      simp only [if_neg hine]
      simp only [Nat.cast_zero, neg_zero, Int.toNat_zero, le_refl, true_and]
      rw [if_pos h4]
      apply ih (i + 1) _ (by omega) (by omega)
      · simp only [List.length_cons] at h3
        omega
      · simp only [setChunk, List.length_set]
        exact h4

theorem paginate_neg (b : Int) (hb : b < 0) (l : List String) (hl : b.natAbs < l.length) :
    paginate l b = .error .indexOutOfRange := by
  have hbne : b ≠ 0 := hb.ne
  have hA : 0 < b.natAbs := Int.natAbs_pos.mpr hbne
  have hble : ¬ (0 ≤ b) := by omega
  cases l with
  | nil => simp at hl
  | cons s rest =>
    simp only [paginate, paginateAux, if_neg hbne, goModNat, goDivNat, if_neg hble]
    simp only [Nat.zero_mod, Nat.zero_div, if_pos rfl]
    norm_num
    apply paginateAux_neg b hb rest 1 _ le_rfl hA
    · simp only [List.length_cons] at hl
      omega
    · simp [setChunk]

theorem paginate_zero_panics (s : String) (l : List String) :
    paginate (s :: l) 0 = .error .divByZero := rfl

/-! ## Reference-body parsing (claim C4) -/

theorem breakAt_of_not_mem (c : Char) (l : List Char) (h : c ∉ l) :
    breakAt c l = none := by
  induction l with
  | nil => rfl
  | cons x xs ih =>
    have hx : ¬ x = c := fun he => h (List.mem_cons.mpr (Or.inl he.symm))
    have hxs : c ∉ xs := fun hm => h (List.mem_cons_of_mem x hm)
    simp [breakAt, hx, ih hxs]

theorem breakAt_append (c : Char) (p rest : List Char) (h : c ∉ p) :
    breakAt c (p ++ c :: rest) = some (p, rest) := by
  induction p with
  | nil => simp [breakAt]
  | cons x xs ih =>
    have hx : ¬ x = c := fun he => h (List.mem_cons.mpr (Or.inl he.symm))
    have hxs : c ∉ xs := fun hm => h (List.mem_cons_of_mem x hm)
    simp [breakAt, hx, ih hxs]

theorem splitNAux_one_seg (p : List Char) (hp : '#' ∉ p) :
    splitNAux '#' 3 p = [p] := by
  show splitNAux '#' (1 + 2) p = [p]
  simp [splitNAux, breakAt_of_not_mem '#' p hp]

theorem splitNAux_two_seg (p k : List Char) (hp : '#' ∉ p) (hk : '#' ∉ k) :
    splitNAux '#' 3 (p ++ '#' :: k) = [p, k] := by
  show splitNAux '#' (1 + 2) (p ++ '#' :: k) = [p, k]
  simp [splitNAux, breakAt_append '#' p k hp, breakAt_of_not_mem '#' k hk]

theorem splitNAux_three_seg (p k v : List Char) (hp : '#' ∉ p) (hk : '#' ∉ k) :
    splitNAux '#' 3 (p ++ '#' :: (k ++ '#' :: v)) = [p, k, v] := by
  show splitNAux '#' (1 + 2) (p ++ '#' :: (k ++ '#' :: v)) = [p, k, v]
  simp [splitNAux, breakAt_append '#' p (k ++ '#' :: v) hp, breakAt_append '#' k v hk]

theorem parseRefBody_one_seg (u : Bool) (p : List Char) (hp : '#' ∉ p) :
    parseRefBody u (String.mk p) = .error "secret data key or template not defined" := by
  have h : goSplitHash (String.mk p) 3 = [String.mk p] := by
    simp [goSplitHash, splitNAux_one_seg p hp]
  simp [parseRefBody, h]

theorem parseRefBody_two_seg (u : Bool) (p k : List Char) (hp : '#' ∉ p) (hk : '#' ∉ k) :
    parseRefBody u (String.mk (p ++ '#' :: k)) =
      .ok (String.mk p, String.mk k, if u then "\x7b\x7d" else "-1") := by
  have h : goSplitHash (String.mk (p ++ '#' :: k)) 3 = [String.mk p, String.mk k] := by
    simp [goSplitHash, splitNAux_two_seg p k hp hk]
  simp [parseRefBody, h]

theorem parseRefBody_three_seg (u : Bool) (p k v : List Char) (hp : '#' ∉ p) (hk : '#' ∉ k) :
    parseRefBody u (String.mk (p ++ '#' :: (k ++ '#' :: v))) =
      .ok (String.mk p, String.mk k, String.mk v) := by
  have h : goSplitHash (String.mk (p ++ '#' :: (k ++ '#' :: v))) 3
      = [String.mk p, String.mk k, String.mk v] := by
    show List.map String.mk (splitNAux '#' 3 (p ++ '#' :: (k ++ '#' :: v)))
        = [String.mk p, String.mk k, String.mk v]
    rw [splitNAux_three_seg p k v hp hk]
    rfl
  simp [parseRefBody, h]

/-- C4: after write-mode stripping, the scheme body is split on at most two
`#` separators; a body with no `#` fails with "secret data key or template
not defined"; with exactly two segments the version-or-payload defaults to
`-1` in read mode and to the empty JSON object in write mode; with three
segments the third segment (which may itself contain `#`) is taken
verbatim. -/
theorem c4_scheme_body_split (update : Bool) (p k v : List Char)
    (hp : '#' ∉ p) (hk : '#' ∉ k) :
    parseRefBody update (String.mk p) = .error "secret data key or template not defined" ∧
    parseRefBody update (String.mk (p ++ '#' :: k)) =
      .ok (String.mk p, String.mk k, if update then "\x7b\x7d" else "-1") ∧
    parseRefBody update (String.mk (p ++ '#' :: (k ++ '#' :: v))) =
      .ok (String.mk p, String.mk k, String.mk v) :=
  ⟨parseRefBody_one_seg update p hp, parseRefBody_two_seg update p k hp hk,
   parseRefBody_three_seg update p k v hp hk⟩

theorem c4_scheme_body_split_witness :
    ('#' ∉ ['p', 'a']) ∧ ('#' ∉ ['k', 'y']) ∧
    parseRefBody true (String.mk (['p', 'a'] ++ '#' :: ['k', 'y'])) =
      .ok (String.mk ['p', 'a'], String.mk ['k', 'y'], "\x7b\x7d") :=
  ⟨by decide, by decide,
   (c4_scheme_body_split true ['p', 'a'] ['k', 'y'] [] (by decide) (by decide)).2.1⟩

/-- C10 counterexample: a non-empty input and a negative batch size on which
`paginate` returns normally instead of indexing out of range — the
single-element list fits in the one page allocated at `i = 0`. -/
theorem c10_counterexample : paginate ["a"] (-1) = .ok [["a"]] := by decide

/-- C10 (amended): `paginate` is total exactly on positive batch sizes; with
batch size 0 any non-empty input divides by zero, and with a negative batch
size the loop indexes out of range as soon as the input holds more than
`|batchSize|` elements; a resolve call that reaches batch decryption with
the unvalidated zero batch size aborts with the division panic rather than
returning an error. -/
theorem c10_paginate_partiality :
    (∀ (l : List String) (b : Int), 1 ≤ b → ∃ cs, paginate l b = .ok cs) ∧
    (∀ (s : String) (l : List String), paginate (s :: l) 0 = .error .divByZero) ∧
    (∀ (b : Int) (l : List String), b < 0 → b.natAbs < l.length →
      paginate l b = .error .indexOutOfRange) ∧
    (∀ (env : Env) (cfg : Config) (st : InjSt) (name value : String) (fuel : Nat),
      cfg.transitBatchSize = 0 → cfg.transitKeyID ≠ "" →
      findInlineBaoDelimiters value = [] → env.isEncrypted value = true →
      alLookup st.transitCache value = none →
      (injectSecretsFromBao env cfg (fuel + 1) [(name, value)] st).err
        = some (.crash .divByZero)) := by
  refine ⟨?_, ?_, ?_, ?_⟩
  · intro l b hb
    have hb0 : 0 < b.toNat := by omega
    have hcast : b = ((b.toNat : Nat) : Int) := (Int.toNat_of_nonneg (by omega)).symm
    rw [hcast]
    exact ⟨chunks b.toNat l, paginate_eq_chunks b.toNat hb0 l⟩
  · exact paginate_zero_panics
  · intro b l hb hl
    exact paginate_neg b hb l hl
  · intro env cfg st name value fuel hbs hkey hspan henc hmiss
    have hset : collectSecretSet env [(name, value)] = [value] := by
      simp [collectSecretSet, hspan, henc, insertSet]
    have hunc : uncachedSecrets st [value] = [value] := by
      simp [uncachedSecrets, List.filter, hmiss]
    have hpag : paginate [value] cfg.transitBatchSize = .error .divByZero := by
      rw [hbs]
      rfl
    have hpre : preprocessTransitSecrets env cfg st [(name, value)]
        = ⟨[(name, value)], st, Trace.nil, some (.crash .divByZero)⟩ := by
      simp only [preprocessTransitSecrets, hset, hunc, hpag]
    simp only [injectSecretsFromBao, hpre]

theorem c10_paginate_partiality_witness :
    (1 ≤ (2 : Int) ∧ ∃ cs, paginate ["a", "b", "c"] 2 = .ok cs) ∧
    ((-1 : Int) < 0 ∧ (-1 : Int).natAbs < (["x", "y"] : List String).length ∧
      paginate ["x", "y"] (-1) = .error .indexOutOfRange) ∧
    (cfg0.transitBatchSize = 0 ∧ cfg0.transitKeyID ≠ "" ∧
      findInlineBaoDelimiters ctOk = [] ∧ envOk.isEncrypted ctOk = true ∧
      alLookup initSt.transitCache ctOk = none ∧
      (injectSecretsFromBao envOk cfg0 1 [("N", ctOk)] initSt).err
        = some (.crash .divByZero)) :=
  ⟨⟨by decide, c10_paginate_partiality.1 ["a", "b", "c"] 2 (by decide)⟩,
   ⟨by decide, by decide, c10_paginate_partiality.2.2.1 (-1) ["x", "y"] (by decide) (by decide)⟩,
   ⟨by decide, by decide, by decide, by decide, by decide,
    c10_paginate_partiality.2.2.2 envOk cfg0 initSt "N" ctOk 0 (by decide) (by decide)
      (by decide) (by decide) (by decide)⟩⟩

/-! ## Concrete runs exposing the delivery bugs (claims C1, C2, C3) -/

/-- C1 (failing run): a single top-level transit ciphertext that the
pre-scan decrypts and caches is delivered to the sink twice — once by the
pre-scan injection loop (which, unlike the inline branch, does not delete
the entry from the references) and once again by the main loop's cache hit. -/
theorem c1_double_delivery :
    (injectSecretsFromBao envOk cfg1 2 [("NAME", ctOk)] initSt).err = none ∧
    (injectSecretsFromBao envOk cfg1 2 [("NAME", ctOk)] initSt).tr.sinks
      = [("NAME", "plain"), ("NAME", "plain")] :=
  ⟨by decide, by decide⟩

/-- C2 (failing run): for a reference holding one inline span whose
ciphertext the pre-scan decrypts and caches, the pre-scan injection loop
neither sinks a substituted value nor removes the entry: its cache lookup
uses the full `$\x7b...\x7d` match while the cache is keyed by the inner
capture, so the branch never fires (and had it fired, line 165 injects the
original `value`, not the substituted `newValue`). -/
theorem c2_inline_prescan_never_fires :
    findInlineBaoDelimiters c2val = [("$\x7bbao:v1:C\x7d", ctOk)] ∧
    (preprocessTransitSecrets envOk cfg1 initSt [("X", c2val)]).tr.batchCalls = [[ctOk]] ∧
    alLookup (preprocessTransitSecrets envOk cfg1 initSt [("X", c2val)]).st.transitCache ctOk
      = some "plain" ∧
    (preprocessTransitSecrets envOk cfg1 initSt [("X", c2val)]).tr.sinks = [] ∧
    (preprocessTransitSecrets envOk cfg1 initSt [("X", c2val)]).refs = [("X", c2val)] :=
  ⟨by decide, by decide, by decide, by decide, by decide⟩

/-- C3 (failing run): with ignore-missing disabled, a failing batched
decrypt RPC does not fail the resolve call: `FetchTransitSecretsWithContext`
logs the RPC error and returns a nil error (injector.go line 95), so the
policy check in the pre-scan fetch loop never sees it; the value is simply
retried one-by-one in the main loop. -/
theorem c3_batch_decrypt_error_swallowed :
    cfg1.ignoreMissingSecrets = false ∧
    (envBatchDown.decryptBatch [ctOk]).2 = some "connection refused" ∧
    (fetchTransitSecrets envBatchDown cfg1 initSt [ctOk]).2.2.2 = none ∧
    (injectSecretsFromBao envBatchDown cfg1 2 [("A", ctOk)] initSt).tr.batchCalls = [[ctOk]] ∧
    (injectSecretsFromBao envBatchDown cfg1 2 [("A", ctOk)] initSt).err = none ∧
    (injectSecretsFromBao envBatchDown cfg1 2 [("A", ctOk)] initSt).tr.sinks
      = [("A", "plain")] :=
  ⟨by decide, by decide, by decide, by decide, by decide, by decide⟩

/-- C6 counterexample: one ciphertext appearing under two names, whose
batched decrypt fails; the batch RPC already contained the ciphertext once,
and the main loop then hands it to the single-decrypt RPC again — two
collaborator invocations for one unique ciphertext in one resolve call. -/
theorem c6_counterexample :
    (injectSecretsFromBao envBatchDown cfg1 2 [("A", ctOk), ("B", ctOk)] initSt).tr.batchCalls
      = [[ctOk]] ∧
    (injectSecretsFromBao envBatchDown cfg1 2 [("A", ctOk), ("B", ctOk)] initSt).tr.singleCalls
      = [ctOk] ∧
    decryptTouches (injectSecretsFromBao envBatchDown cfg1 2 [("A", ctOk), ("B", ctOk)] initSt).tr
      ctOk = 2 :=
  ⟨by decide, by decide, by decide⟩

/-! ## Singleton-run reductions (claims C7, C8, C9) -/

theorem alLookup_nil (k : String) : alLookup ([] : List (String × α)) k = none := rfl

theorem Trace.nil_app (t : Trace) : Trace.app Trace.nil t = t := by
  cases t
  simp [Trace.app, Trace.nil]

theorem Trace.app_nil (t : Trace) : Trace.app t Trace.nil = t := by
  cases t
  simp [Trace.app, Trace.nil]

theorem preprocess_noop_single (env : Env) (cfg : Config) (st : InjSt) (n v : String)
    (hspan : findInlineBaoDelimiters v = []) (henc : env.isEncrypted v = false) :
    preprocessTransitSecrets env cfg st [(n, v)] = ⟨[(n, v)], st, Trace.nil, none⟩ := by
  have hset : collectSecretSet env [(n, v)] = [] := by
    simp [collectSecretSet, hspan, henc]
  have hpag : paginate (uncachedSecrets st (collectSecretSet env [(n, v)]))
      cfg.transitBatchSize = .ok [] := by
    rw [hset]
    rfl
  have hloop : preprocessInjectLoop env st [(n, v)] = ([(n, v)], []) := by
    simp [preprocessInjectLoop, hspan, henc]
  simp only [preprocessTransitSecrets, hpag]
  simp [fetchLoop, hloop, Trace.nil]

theorem mainLoop_singleton (env : Env) (cfg : Config)
    (recurse : String → String → InjSt → InjSt × Trace × Option RunErr)
    (n v : String) (st : InjSt) :
    mainLoopWith env cfg recurse [(n, v)] st = processEntry env cfg recurse n v st := by
  rcases hr : processEntry env cfg recurse n v st with ⟨a, b, c⟩
  simp only [mainLoopWith, hr]
  cases c with
  | none => simp [mainLoopWith, Trace.app_nil]
  | some e => simp

theorem run_singleton_plain (env : Env) (cfg : Config) (n v : String) (st : InjSt) (fuel : Nat)
    (hspan : findInlineBaoDelimiters v = []) (henc : env.isEncrypted v = false) :
    injectSecretsFromBao env cfg (fuel + 1) [(n, v)] st =
      ⟨(processPlain env cfg n v st).1, (processPlain env cfg n v st).2.1,
       (processPlain env cfg n v st).2.2⟩ := by
  have hpre := preprocess_noop_single env cfg st n v hspan henc
  simp only [injectSecretsFromBao, hpre]
  simp only [mainLoop_singleton, processEntry, hspan]
  rcases hp : processPlain env cfg n v st with ⟨a, b, c⟩
  simp [Trace.nil_app]

/-- C9: the reserved pair `("BAO_TOKEN", "bao:login")` always sinks exactly
the token held by the client and the run performs no store read, no store
write and no decrypt call — whatever the configuration, the caches, and the
rest of the environment (given only that the literal `bao:login` is not
transit ciphertext, which the transit engine's prefix test guarantees). -/
theorem c9_reserved_login_pair (env : Env) (cfg : Config) (st : InjSt) (fuel : Nat)
    (henc : env.isEncrypted "bao:login" = false) :
    injectSecretsFromBao env cfg (fuel + 1) [("BAO_TOKEN", "bao:login")] st =
      ⟨st, Trace.sink1 "BAO_TOKEN" env.clientToken, none⟩ := by
  have hspan : findInlineBaoDelimiters "bao:login" = [] := by decide
  rw [run_singleton_plain env cfg "BAO_TOKEN" "bao:login" st fuel hspan henc]
  have h1 : hasPreL "bao:login" ['>', '>', 'b', 'a', 'o', ':'] = false := by decide
  have h2 : hasPreL "bao:login" ['b', 'a', 'o', ':'] = true := by decide
  have h3 : trimPreL "bao:login" ['b', 'a', 'o', ':'] = "login" := by decide
  simp [processPlain, processBaoValue, h1, h2, h3]

theorem c9_reserved_login_pair_witness :
    envStore.isEncrypted "bao:login" = false ∧
    injectSecretsFromBao envStore cfg1 1 [("BAO_TOKEN", "bao:login")] initSt =
      ⟨initSt, Trace.sink1 "BAO_TOKEN" "tok", none⟩ :=
  ⟨by decide, c9_reserved_login_pair envStore cfg1 initSt 0 (by decide)⟩

theorem schemeRef_not_login (p k : List Char) :
    ¬ (String.mk (p ++ '#' :: k) = "login") := by
  intro h
  have hm : '#' ∈ p ++ '#' :: k := List.mem_append_right p (List.mem_cons_self '#' k)
  have hd : (String.mk (p ++ '#' :: k)).data = ("login" : String).data := by rw [h]
  rw [show (String.mk (p ++ '#' :: k)).data = p ++ '#' :: k from rfl] at hd
  rw [hd] at hm
  exact absurd hm (by decide)

/-- Reduction of `processPlain` for a plain, not-encrypted two-segment
reference: it lands in `resolvePathRef` in read mode. -/
theorem processPlain_schemeRef (env : Env) (cfg : Config) (name : String)
    (p k : List Char) (st : InjSt)
    (henc : env.isEncrypted (schemeRef p k) = false) :
    processPlain env cfg name (schemeRef p k) st =
      resolvePathRef env cfg name false (String.mk (p ++ '#' :: k)) st := by
  have h1 : hasPreL (schemeRef p k) ['>', '>', 'b', 'a', 'o', ':'] = false := by
    simp [hasPreL, schemeRef, List.isPrefixOf]
  have h2 : hasPreL (schemeRef p k) ['b', 'a', 'o', ':'] = true := by
    simp [hasPreL, schemeRef, List.isPrefixOf]
  have h3 : trimPreL (schemeRef p k) ['b', 'a', 'o', ':'] = String.mk (p ++ '#' :: k) := by
    simp only [trimPreL, h2, if_true]
    rfl
  simp [processPlain, processBaoValue, h1, h2, h3, henc, schemeRef_not_login p k]

/-- C7: a reference whose store read returns a nil secret with no error is
a fatal "path not found: <path>" when ignore-missing is disabled, and a
silent skip (no error, no sink invocation) when it is enabled. -/
theorem c7_missing_path (env : Env) (cfg : Config) (name : String) (p k : List Char) (fuel : Nat)
    (hp : '#' ∉ p) (hk : '#' ∉ k)
    (hspan : findInlineBaoDelimiters (schemeRef p k) = [])
    (henc : env.isEncrypted (schemeRef p k) = false)
    (hread : env.logicalRead (String.mk p) "-1" = .ok none) :
    (cfg.ignoreMissingSecrets = false →
      (injectSecretsFromBao env cfg (fuel + 1) [(name, schemeRef p k)] initSt).err
        = some (.goErr ("path not found: " ++ String.mk p))) ∧
    (cfg.ignoreMissingSecrets = true →
      (injectSecretsFromBao env cfg (fuel + 1) [(name, schemeRef p k)] initSt).err = none ∧
      (injectSecretsFromBao env cfg (fuel + 1) [(name, schemeRef p k)] initSt).tr.sinks = []) := by
  have hrun := run_singleton_plain env cfg name (schemeRef p k) initSt fuel hspan henc
  have hparse := parseRefBody_two_seg false p k hp hk
  have hpp : processPlain env cfg name (schemeRef p k) initSt
      = (initSt, Trace.read1 (String.mk p) "-1",
         if cfg.ignoreMissingSecrets then none
         else some (RunErr.goErr ("path not found: " ++ String.mk p))) := by
    rw [processPlain_schemeRef env cfg name p k initSt henc]
    simp only [resolvePathRef, hparse]
    simp [readBaoPath, hread, normalizeSecret, alLookup, initSt]
    by_cases hig : cfg.ignoreMissingSecrets <;> simp [hig]
  constructor
  · intro hig
    rw [hrun, hpp]
    simp [hig]
  · intro hig
    rw [hrun, hpp]
    simp [hig, Trace.read1]

theorem c7_missing_path_witness :
    ('#' ∉ ['m', 'i', 's', 's', 'i', 'n', 'g']) ∧ ('#' ∉ ['k']) ∧
    envStore.logicalRead (String.mk ['m', 'i', 's', 's', 'i', 'n', 'g']) "-1" = .ok none ∧
    cfg1.ignoreMissingSecrets = false ∧
    (injectSecretsFromBao envStore cfg1 1
        [("X", schemeRef ['m', 'i', 's', 's', 'i', 'n', 'g'] ['k'])] initSt).err
      = some (.goErr ("path not found: " ++ String.mk ['m', 'i', 's', 's', 'i', 'n', 'g'])) :=
  ⟨by decide, by decide, rfl, by decide,
   (c7_missing_path envStore cfg1 "X" ['m', 'i', 's', 's', 'i', 'n', 'g'] ['k'] 0
      (by decide) (by decide) (by decide) (by decide) rfl).1 rfl⟩

/-- C8: once a non-nil attribute mapping is fetched, a template key is
rendered through the external templater; a plain key is looked up literally,
failing with the exact `key '<key>' not found under path: <path>` message
when absent, and its value cast to a string, failing with the cast error
when the value is no scalar. -/
theorem c8_key_resolution (env : Env) (cfg : Config) (name : String) (p k : List Char)
    (sdata : List (String × GoVal)) (fuel : Nat)
    (hp : '#' ∉ p) (hk : '#' ∉ k)
    (hspan : findInlineBaoDelimiters (schemeRef p k) = [])
    (henc : env.isEncrypted (schemeRef p k) = false)
    (hread : env.logicalRead (String.mk p) "-1" = .ok (some ⟨sdata, 0, []⟩))
    (hnd : alLookup sdata "data" = none) :
    (∀ out, env.isGoTemplate (String.mk k) = true →
      env.render (String.mk k) sdata = .ok out →
      (injectSecretsFromBao env cfg (fuel + 1) [(name, schemeRef p k)] initSt).err = none ∧
      (injectSecretsFromBao env cfg (fuel + 1) [(name, schemeRef p k)] initSt).tr.sinks
        = [(name, out)]) ∧
    (env.isGoTemplate (String.mk k) = false →
      alLookup sdata (String.mk k) = none →
      (injectSecretsFromBao env cfg (fuel + 1) [(name, schemeRef p k)] initSt).err
        = some (.goErr ("key " ++ squoteStr ++ String.mk k ++ squoteStr
            ++ " not found under path: " ++ String.mk p))) ∧
    (∀ gv s, env.isGoTemplate (String.mk k) = false →
      alLookup sdata (String.mk k) = some gv → castToStringE gv = .ok s →
      (injectSecretsFromBao env cfg (fuel + 1) [(name, schemeRef p k)] initSt).err = none ∧
      (injectSecretsFromBao env cfg (fuel + 1) [(name, schemeRef p k)] initSt).tr.sinks
        = [(name, s)]) ∧
    (∀ gv e, env.isGoTemplate (String.mk k) = false →
      alLookup sdata (String.mk k) = some gv → castToStringE gv = .error e →
      (injectSecretsFromBao env cfg (fuel + 1) [(name, schemeRef p k)] initSt).err
        = some (.goErr ("value can't be cast to a string: " ++ e))) := by
  have hrun := run_singleton_plain env cfg name (schemeRef p k) initSt fuel hspan henc
  have hparse := parseRefBody_two_seg false p k hp hk
  have hpp : processPlain env cfg name (schemeRef p k) initSt
      = resolveKey env name (String.mk p) (String.mk k) sdata
          ⟨[], alInsert [] (String.mk p ++ "#" ++ "-1") sdata⟩
          (Trace.read1 (String.mk p) "-1") := by
    rw [processPlain_schemeRef env cfg name p k initSt henc]
    simp only [resolvePathRef, hparse]
    simp [readBaoPath, hread, normalizeSecret, hnd, alLookup_nil, initSt]
  refine ⟨?_, ?_, ?_, ?_⟩
  · intro out ht hr
    rw [hrun, hpp]
    simp [resolveKey, ht, hr, Trace.app, Trace.read1, Trace.sink1]
  · intro ht hl
    rw [hrun, hpp]
    simp [resolveKey, ht, hl]
  · intro gv s ht hl hc
    rw [hrun, hpp]
    simp [resolveKey, ht, hl, hc, Trace.app, Trace.read1, Trace.sink1]
  · intro gv e ht hl hc
    rw [hrun, hpp]
    simp [resolveKey, ht, hl, hc]

theorem c8_key_resolution_witness :
    envStore.isGoTemplate (String.mk ['k']) = false ∧
    alLookup [("k", GoVal.str "v")] (String.mk ['k']) = some (GoVal.str "v") ∧
    castToStringE (GoVal.str "v") = .ok "v" ∧
    (injectSecretsFromBao envStore cfg1 1
        [("N", schemeRef ['d', 'a', 't', 'a'] ['k'])] initSt).err = none ∧
    (injectSecretsFromBao envStore cfg1 1
        [("N", schemeRef ['d', 'a', 't', 'a'] ['k'])] initSt).tr.sinks = [("N", "v")] := by
  have h := (c8_key_resolution envStore cfg1 "N" ['d', 'a', 't', 'a'] ['k']
      [("k", GoVal.str "v")] 0 (by decide) (by decide) (by decide) (by decide) rfl rfl).2.2.1
    (GoVal.str "v") "v" (by decide) rfl rfl
  exact ⟨by decide, rfl, rfl, h.1, h.2⟩

/-! ## Cache and secret-set lemmas (claims C5 and C6) -/

theorem alLookup_cons (p : String × α) (l : List (String × α)) (k : String) :
    alLookup (p :: l) k = if p.1 = k then some p.2 else alLookup l k := by
  by_cases h : p.1 = k <;> simp [alLookup, List.find?, h]

theorem alLookup_map_overwrite (l : List (String × α)) (k k' : String) (v : α) :
    alLookup (l.map (fun p => if p.1 = k' then (k', v) else p)) k
      = if k = k' then ((l.find? (fun p => decide (p.1 = k'))).map (fun _ => v))
        else alLookup l k := by
  induction l with
  | nil => simp [alLookup_nil]
  | cons p rest ih =>
    by_cases hp : p.1 = k'
    · by_cases hkk : k = k'
      · subst hkk
        simp [alLookup_cons, hp, List.find?_cons_of_pos, ih]
      · have hpk : ¬ p.1 = k := fun he => hkk (by rw [← he, hp])
        have hL : alLookup (List.map (fun p => if p.1 = k' then (k', v) else p) (p :: rest)) k
            = alLookup rest k := by
          simp only [List.map_cons, if_pos hp, alLookup_cons]
          rw [if_neg (fun he => hkk he.symm), ih, if_neg hkk]
        rw [hL, if_neg hkk, alLookup_cons, if_neg hpk]
    · by_cases hpk : p.1 = k
      · have hkk : ¬ k = k' := fun he => hp (hpk.trans he)
        simp only [List.map_cons, if_neg hp, alLookup_cons, if_pos hpk]
        rw [if_neg hkk]
      · simp only [List.map_cons, if_neg hp, alLookup_cons, if_neg hpk]
        rw [ih]
        by_cases hkk : k = k'
        · simp [hkk, List.find?_cons_of_neg, hp]
        · simp [hkk]

theorem alLookup_append_one (l : List (String × α)) (k k' : String) (v : α) :
    alLookup (l ++ [(k', v)]) k
      = (alLookup l k).orElse (fun _ => if k' = k then some v else none) := by
  induction l with
  | nil =>
    by_cases h : k' = k <;> simp [alLookup_nil, alLookup_cons, h]
  | cons p rest ih =>
    by_cases hp : p.1 = k <;> simp [alLookup_cons, hp, ih]

theorem alLookup_alInsert (l : List (String × α)) (k k' : String) (v : α) :
    alLookup (alInsert l k' v) k = if k = k' then some v else alLookup l k := by
  unfold alInsert
  by_cases hf : (l.find? (fun p => decide (p.1 = k'))).isSome
  · rw [if_pos hf, alLookup_map_overwrite]
    by_cases hkk : k = k'
    · obtain ⟨q, hq⟩ := Option.isSome_iff_exists.mp hf
      simp [hkk, hq]
    · simp [hkk]
  · rw [if_neg hf, alLookup_append_one]
    have hnone : l.find? (fun p => decide (p.1 = k')) = none :=
      Option.not_isSome_iff_eq_none.mp hf
    by_cases hkk : k = k'
    · subst hkk
      have : alLookup l k = none := by
        simp [alLookup, hnone]
      simp [this]
    · have hkk' : ¬ k' = k := fun he => hkk he.symm
      simp only [if_neg hkk', if_neg hkk]
      cases h : alLookup l k <;> simp [Option.orElse]

theorem alLookup_alInsert_isSome (l : List (String × α)) (k k' : String) (v : α)
    (h : (alLookup l k).isSome) : (alLookup (alInsert l k' v) k).isSome := by
  rw [alLookup_alInsert]
  by_cases hkk : k = k' <;> simp [hkk, h]

theorem alLookup_foldl_insert (out : List (String × String)) (cache : List (String × String))
    (c : String) (h : (alLookup out c).isSome ∨ (alLookup cache c).isSome) :
    (alLookup (out.foldl (fun m p => alInsert m p.1 p.2) cache) c).isSome := by
  induction out generalizing cache with
  | nil =>
    rcases h with h | h
    · simp [alLookup_nil] at h
    · simpa using h
  | cons p rest ih =>
    simp only [List.foldl_cons]
    apply ih
    by_cases hc : c = p.1
    · right
      rw [alLookup_alInsert]
      simp [hc]
    · rcases h with h | h
      · rw [alLookup_cons, if_neg (fun he => hc he.symm)] at h
        left
        exact h
      · right
        exact alLookup_alInsert_isSome _ _ _ _ h

theorem count_flatten_eq (c : String) (L : List (List String)) :
    (L.map (fun l => l.count c)).sum = L.flatten.count c := by
  induction L with
  | nil => simp
  | cons l rest ih => simp [List.count_append, ih]

theorem insertSet_nodup (l : List String) (x : String) (h : l.Nodup) :
    (insertSet l x).Nodup := by
  unfold insertSet
  by_cases hx : x ∈ l
  · simp [hx, h]
  · simp [hx, List.nodup_append, h]

theorem insertSet_mem_self (l : List String) (x : String) : x ∈ insertSet l x := by
  unfold insertSet
  by_cases hx : x ∈ l <;> simp [hx]

theorem insertSet_mem_mono (l : List String) (x y : String) (h : y ∈ l) :
    y ∈ insertSet l x := by
  unfold insertSet
  by_cases hx : x ∈ l <;> simp [hx, h]

theorem collectSecretSet_eq_foldl (env : Env) (refs : List (String × String)) :
    collectSecretSet env refs = refs.foldl (collectStep env) [] := rfl

theorem collectInnerFold_nodup (env : Env) (ms : List (String × String))
    (acc : List String) (h : acc.Nodup) :
    (ms.foldl (fun acc2 m => if env.isEncrypted m.2 then insertSet acc2 m.2 else acc2)
      acc).Nodup := by
  induction ms generalizing acc with
  | nil => exact h
  | cons m rest ih =>
    simp only [List.foldl_cons]
    apply ih
    by_cases he : env.isEncrypted m.2 <;> simp [he, insertSet_nodup, h]

theorem collectInnerFold_mem_mono (env : Env) (ms : List (String × String))
    (acc : List String) (y : String) (h : y ∈ acc) :
    y ∈ ms.foldl (fun acc2 m => if env.isEncrypted m.2 then insertSet acc2 m.2 else acc2) acc := by
  induction ms generalizing acc with
  | nil => exact h
  | cons m rest ih =>
    simp only [List.foldl_cons]
    apply ih
    by_cases he : env.isEncrypted m.2 <;> simp [he, insertSet_mem_mono, h]

theorem collectStep_nodup (env : Env) (acc : List String) (q : String × String)
    (h : acc.Nodup) : (collectStep env acc q).Nodup := by
  unfold collectStep
  by_cases h1 : findInlineBaoDelimiters q.2 ≠ []
  · simp only [if_pos h1]
    exact collectInnerFold_nodup env _ acc h
  · simp only [if_neg h1]
    by_cases h2 : env.isEncrypted q.2 <;> simp [h2, insertSet_nodup, h]

theorem collectStep_mem_mono (env : Env) (acc : List String) (q : String × String)
    (y : String) (h : y ∈ acc) : y ∈ collectStep env acc q := by
  unfold collectStep
  by_cases h1 : findInlineBaoDelimiters q.2 ≠ []
  · simp only [if_pos h1]
    exact collectInnerFold_mem_mono env _ acc y h
  · simp only [if_neg h1]
    by_cases h2 : env.isEncrypted q.2 <;> simp [h2, insertSet_mem_mono, h]

theorem foldl_collectStep_nodup (env : Env) (refs : List (String × String))
    (acc : List String) (h : acc.Nodup) : (refs.foldl (collectStep env) acc).Nodup := by
  induction refs generalizing acc with
  | nil => exact h
  | cons q rest ih =>
    simp only [List.foldl_cons]
    exact ih _ (collectStep_nodup env acc q h)

theorem foldl_collectStep_mem_mono (env : Env) (refs : List (String × String))
    (acc : List String) (y : String) (h : y ∈ acc) :
    y ∈ refs.foldl (collectStep env) acc := by
  induction refs generalizing acc with
  | nil => exact h
  | cons q rest ih =>
    simp only [List.foldl_cons]
    exact ih _ (collectStep_mem_mono env acc q y h)

theorem collectSecretSet_nodup (env : Env) (refs : List (String × String)) :
    (collectSecretSet env refs).Nodup := by
  rw [collectSecretSet_eq_foldl]
  exact foldl_collectStep_nodup env refs [] List.nodup_nil

theorem foldl_collectStep_mem (env : Env) (refs : List (String × String)) :
    ∀ (acc : List String) (n v : String), (n, v) ∈ refs →
      findInlineBaoDelimiters v = [] → env.isEncrypted v = true →
      v ∈ refs.foldl (collectStep env) acc := by
  induction refs with
  | nil =>
    intro acc n v hmem _ _
    simp at hmem
  | cons q rest ih =>
    intro acc n v hmem hspan henc
    rcases List.mem_cons.mp hmem with h | h
    · subst h
      simp only [List.foldl_cons]
      apply foldl_collectStep_mem_mono
      unfold collectStep
      simp only [hspan]
      simp [henc, insertSet_mem_self]
    · simp only [List.foldl_cons]
      exact ih _ n v h hspan henc

theorem collectSecretSet_mem (env : Env) (refs : List (String × String)) (n v : String)
    (hmem : (n, v) ∈ refs) (hspan : findInlineBaoDelimiters v = [])
    (henc : env.isEncrypted v = true) : v ∈ collectSecretSet env refs := by
  rw [collectSecretSet_eq_foldl]
  exact foldl_collectStep_mem env refs [] n v hmem hspan henc

theorem preprocessInjectLoop_subset (env : Env) (st : InjSt) (refs : List (String × String)) :
    ∀ x ∈ (preprocessInjectLoop env st refs).1, x ∈ refs := by
  induction refs with
  | nil =>
    intro x hx
    simp [preprocessInjectLoop] at hx
  | cons q rest ih =>
    intro x hx
    obtain ⟨n, v⟩ := q
    simp only [preprocessInjectLoop] at hx
    by_cases h1 : findInlineBaoDelimiters v ≠ []
    · simp only [if_pos h1] at hx
      by_cases h2 : v ≠ (findInlineBaoDelimiters v).foldl
          (fun nv m =>
            match alLookup st.transitCache m.1 with
            | some w => replaceAll v m.1 w
            | none => nv) v
      · simp only [if_pos h2] at hx
        exact List.mem_cons_of_mem _ (ih x hx)
      · simp only [if_neg h2] at hx
        rcases List.mem_cons.mp hx with h | h
        · exact h ▸ List.mem_cons_self _ _
        · exact List.mem_cons_of_mem _ (ih x h)
    · simp only [if_neg h1] at hx
      by_cases h2 : env.isEncrypted v
      · simp only [if_pos h2] at hx
        rcases hc : alLookup st.transitCache v with w | w
        · rw [hc] at hx
          rcases List.mem_cons.mp hx with h | h
          · exact h ▸ List.mem_cons_self _ _
          · exact List.mem_cons_of_mem _ (ih x h)
        · rw [hc] at hx
          rcases List.mem_cons.mp hx with h | h
          · exact h ▸ List.mem_cons_self _ _
          · exact List.mem_cons_of_mem _ (ih x h)
      · simp only [if_neg h2] at hx
        rcases List.mem_cons.mp hx with h | h
        · exact h ▸ List.mem_cons_self _ _
        · exact List.mem_cons_of_mem _ (ih x h)

theorem fetchLoop_calls (env : Env) (cfg : Config) (hkey : ¬ cfg.transitKeyID = "") :
    ∀ (pages : List (List String)) (st : InjSt), (∀ pg ∈ pages, pg ≠ []) →
      (fetchLoop env cfg pages st).2.1 = pages ∧ (fetchLoop env cfg pages st).2.2 = none := by
  intro pages
  induction pages with
  | nil =>
    intro st _
    simp [fetchLoop]
  | cons pg rest ih =>
    intro st hne
    have hpg : ¬ pg = [] := hne pg (List.mem_cons_self _ _)
    simp only [fetchLoop, fetchTransitSecrets, if_neg hkey, if_neg hpg]
    have := ih ({ st with transitCache :=
      (env.decryptBatch pg).1.foldl (fun c p => alInsert c p.1 p.2) st.transitCache })
      (fun q hq => hne q (List.mem_cons_of_mem _ hq))
    simp [this.1, this.2]

theorem fetchLoop_cache (env : Env) (cfg : Config) (hkey : ¬ cfg.transitKeyID = "")
    (hbatch : ∀ (l : List String) (c : String), c ∈ l →
      (alLookup (env.decryptBatch l).1 c).isSome) :
    ∀ (pages : List (List String)) (st : InjSt) (c : String),
      ((alLookup st.transitCache c).isSome ∨ c ∈ pages.flatten) →
      (alLookup (fetchLoop env cfg pages st).1.transitCache c).isSome := by
  intro pages
  induction pages with
  | nil =>
    intro st c h
    rcases h with h | h
    · simpa [fetchLoop] using h
    · simp at h
  | cons pg rest ih =>
    intro st c h
    by_cases hpg : pg = []
    · subst hpg
      simp only [fetchLoop, fetchTransitSecrets, if_neg hkey, if_pos rfl]
      apply ih
      rcases h with h | h
      · exact Or.inl h
      · right
        simpa using h
    · simp only [fetchLoop, fetchTransitSecrets, if_neg hkey, if_neg hpg]
      apply ih
      rcases h with h | h
      · left
        exact alLookup_foldl_insert _ _ _ (Or.inr h)
      · rw [List.flatten_cons, List.mem_append] at h
        rcases h with h | h
        · left
          exact alLookup_foldl_insert _ _ _ (Or.inl (hbatch pg c h))
        · right
          exact h

theorem resolveKey_calls (env : Env) (name path key : String) (data : List (String × GoVal))
    (st : InjSt) (tr0 : Trace) :
    (resolveKey env name path key data st tr0).1 = st ∧
    (resolveKey env name path key data st tr0).2.1.batchCalls = tr0.batchCalls ∧
    (resolveKey env name path key data st tr0).2.1.singleCalls = tr0.singleCalls := by
  unfold resolveKey
  cases ht : env.isGoTemplate key
  · simp only [ht, Bool.false_eq_true, if_false]
    cases hl : alLookup data key with
    | none => simp [hl]
    | some gv => cases hc : castToStringE gv <;> simp [hc, Trace.app, Trace.sink1]
  · simp only [ht, if_true]
    cases hr : env.render key data <;> simp [hr, Trace.app, Trace.sink1]

theorem readBaoPath_calls (env : Env) (cfg : Config) (p v : String) (u : Bool) :
    (readBaoPath env cfg p v u).2.batchCalls = [] ∧
    (readBaoPath env cfg p v u).2.singleCalls = [] := by
  unfold readBaoPath
  cases u
  · simp only [Bool.false_eq_true, if_false]
    cases h : env.logicalRead p v <;> simp [Trace.read1]
  · simp only [if_true]
    cases h : env.jsonUnmarshal v with
    | error e => simp [Trace.nil]
    | ok payload => cases h2 : env.logicalWrite p payload <;> simp [h2, Trace.write1]

theorem resolvePathRef_calls (env : Env) (cfg : Config) (name : String) (u : Bool)
    (vp : String) (st : InjSt) :
    (resolvePathRef env cfg name u vp st).1.transitCache = st.transitCache ∧
    (resolvePathRef env cfg name u vp st).2.1.batchCalls = [] ∧
    (resolvePathRef env cfg name u vp st).2.1.singleCalls = [] := by
  unfold resolvePathRef
  cases hp : parseRefBody u vp with
  | error e => simp [Trace.nil]
  | ok t =>
    obtain ⟨path, key, vd⟩ := t
    simp only
    cases hl : alLookup st.secretCache (path ++ "#" ++ vd) with
    | some data =>
      have h := resolveKey_calls env name path key data
        { st with secretCache := alInsert st.secretCache (path ++ "#" ++ vd) data } Trace.nil
      simp only [hl]
      refine ⟨?_, ?_, ?_⟩
      · rw [h.1]
      · rw [h.2.1]
        rfl
      · rw [h.2.2]
        rfl
    | none =>
      have hb := readBaoPath_calls env cfg path vd u
      cases hr : (readBaoPath env cfg path vd u).1 with
      | error e => simp [hl, hr, hb.1, hb.2]
      | ok od =>
        cases od with
        | none =>
          by_cases hig : cfg.ignoreMissingSecrets = true <;> simp [hl, hr, hig, hb.1, hb.2]
        | some data =>
          have h := resolveKey_calls env name path key data
            { st with secretCache := alInsert st.secretCache (path ++ "#" ++ vd) data }
            (readBaoPath env cfg path vd u).2
          simp [hl, hr, h.1, h.2.1, h.2.2, hb.1, hb.2]

theorem processBaoValue_touches (env : Env) (cfg : Config)
    (hsingle : ∀ c, ∃ w, env.decryptOne c = .ok w) (n : String) (u : Bool)
    (v1 : String) (st : InjSt) :
    (processBaoValue env cfg n u v1 st).2.1.batchCalls = [] ∧
    (∀ c, (alLookup st.transitCache c).isSome →
      (processBaoValue env cfg n u v1 st).2.1.singleCalls.count c = 0 ∧
      (alLookup (processBaoValue env cfg n u v1 st).1.transitCache c).isSome) ∧
    (∀ c, (processBaoValue env cfg n u v1 st).2.1.singleCalls.count c ≤ 1) ∧
    (∀ c, 1 ≤ (processBaoValue env cfg n u v1 st).2.1.singleCalls.count c →
      (alLookup (processBaoValue env cfg n u v1 st).1.transitCache c).isSome) := by
  unfold processBaoValue
  by_cases h1 : hasPreL v1 ['b', 'a', 'o', ':'] = true
  · rw [if_neg (fun h => h h1)]
    by_cases h2 : n = "BAO_TOKEN" ∧ trimPreL v1 ['b', 'a', 'o', ':'] = "login"
    · rw [if_pos h2]
      simp [Trace.sink1]
    · rw [if_neg h2]
      cases h3 : env.isEncrypted v1
      · rw [if_neg (by simp)]
        have h := resolvePathRef_calls env cfg n u (trimPreL v1 ['b', 'a', 'o', ':']) st
        refine ⟨h.2.1, ?_, ?_, ?_⟩
        · intro c hc
          rw [h.2.2, h.1]
          simp [hc]
        · intro c
          rw [h.2.2]
          simp
        · intro c hc
          rw [h.2.2] at hc
          simp at hc
      · rw [if_pos rfl]
        by_cases h4 : cfg.transitKeyID = ""
        · rw [if_pos h4]
          simp [Trace.nil]
        · rw [if_neg h4]
          cases h5 : alLookup st.transitCache v1 with
          | some w => simp [h5, Trace.sink1]
          | none =>
            obtain ⟨w, hw⟩ := hsingle v1
            simp only [h5, hw]
            refine ⟨rfl, ?_, ?_, ?_⟩
            · intro c hc
              have hne : ¬ c = v1 := by
                intro he
                rw [he, h5] at hc
                simp at hc
              constructor
              · simp [Trace.app, Trace.single1, Trace.sink1, List.count_cons, hne]
              · exact alLookup_alInsert_isSome _ _ _ _ hc
            · intro c
              by_cases hce : c = v1 <;>
                simp [Trace.app, Trace.single1, Trace.sink1, List.count_cons, hce]
            · intro c hc
              simp only [Trace.app, Trace.single1, Trace.sink1] at hc
              have hce : c = v1 := by
                by_contra hne
                simp [List.count_cons, hne] at hc
              rw [hce]
              show (alLookup (alInsert st.transitCache v1 w) v1).isSome
              rw [alLookup_alInsert]
              simp
  · rw [if_pos h1]
    simp [Trace.sink1]
theorem processPlain_touches (env : Env) (cfg : Config)
    (hsingle : ∀ c, ∃ w, env.decryptOne c = .ok w) (n v : String) (st : InjSt) :
    (processPlain env cfg n v st).2.1.batchCalls = [] ∧
    (∀ c, (alLookup st.transitCache c).isSome →
      (processPlain env cfg n v st).2.1.singleCalls.count c = 0 ∧
      (alLookup (processPlain env cfg n v st).1.transitCache c).isSome) ∧
    (∀ c, (processPlain env cfg n v st).2.1.singleCalls.count c ≤ 1) ∧
    (∀ c, 1 ≤ (processPlain env cfg n v st).2.1.singleCalls.count c →
      (alLookup (processPlain env cfg n v st).1.transitCache c).isSome) := by
  unfold processPlain
  exact processBaoValue_touches env cfg hsingle n _ _ st

theorem mainLoop_touches (env : Env) (cfg : Config)
    (recurse : String → String → InjSt → InjSt × Trace × Option RunErr)
    (hsingle : ∀ c, ∃ w, env.decryptOne c = .ok w) :
    ∀ (lst : List (String × String)) (st : InjSt),
      (∀ q ∈ lst, findInlineBaoDelimiters q.2 = []) →
      (mainLoopWith env cfg recurse lst st).2.1.batchCalls = [] ∧
      (∀ c, (alLookup st.transitCache c).isSome →
        (mainLoopWith env cfg recurse lst st).2.1.singleCalls.count c = 0) ∧
      (∀ c, (mainLoopWith env cfg recurse lst st).2.1.singleCalls.count c ≤ 1) := by
  intro lst
  induction lst with
  | nil =>
    intro st _
    simp [mainLoopWith, Trace.nil]
  | cons q rest ih =>
    intro st hsp
    obtain ⟨n, v⟩ := q
    have hq : findInlineBaoDelimiters v = [] := hsp (n, v) (List.mem_cons_self _ _)
    have hpe : processEntry env cfg recurse n v st = processPlain env cfg n v st := by
      simp [processEntry, hq]
    have hpt := processPlain_touches env cfg hsingle n v st
    rcases hp : processPlain env cfg n v st with ⟨st1, tr1, e1⟩
    rw [hp] at hpt
    simp only [mainLoopWith, hpe, hp]
    cases e1 with
    | some e =>
      exact ⟨hpt.1, fun c hc => (hpt.2.1 c hc).1, hpt.2.2.1⟩
    | none =>
      rcases hr : mainLoopWith env cfg recurse rest st1 with ⟨st2, tr2, e2⟩
      have iht := ih st1 (fun q hq2 => hsp q (List.mem_cons_of_mem _ hq2))
      rw [hr] at iht
      simp only at hpt iht
      simp only [hr]
      refine ⟨?_, ?_, ?_⟩
      · simp [Trace.app]
        exact ⟨hpt.1, iht.1⟩
      · intro c hc
        have h1 := (hpt.2.1 c hc).1
        have h2 := iht.2.1 c (hpt.2.1 c hc).2
        simp [Trace.app, List.count_append, h1, h2]
      · intro c
        have hle1 := hpt.2.2.1 c
        have hle2 := iht.2.2 c
        by_cases h0 : tr1.singleCalls.count c = 0
        · simp [Trace.app, List.count_append, h0]
          exact hle2
        · have h1 : tr1.singleCalls.count c = 1 := by omega
          have hcache := hpt.2.2.2 c (by omega)
          have h2 := iht.2.1 c hcache
          simp [Trace.app, List.count_append, h1, h2]

theorem preprocess_spec (env : Env) (cfg : Config) (st : InjSt)
    (refs : List (String × String))
    (hkey : ¬ cfg.transitKeyID = "") (hb : 1 ≤ cfg.transitBatchSize) :
    (preprocessTransitSecrets env cfg st refs).refs
        = (preprocessInjectLoop env
            (fetchLoop env cfg (chunks cfg.transitBatchSize.toNat
              (uncachedSecrets st (collectSecretSet env refs))) st).1 refs).1 ∧
    (preprocessTransitSecrets env cfg st refs).st
        = (fetchLoop env cfg (chunks cfg.transitBatchSize.toNat
            (uncachedSecrets st (collectSecretSet env refs))) st).1 ∧
    (preprocessTransitSecrets env cfg st refs).tr.batchCalls
        = chunks cfg.transitBatchSize.toNat (uncachedSecrets st (collectSecretSet env refs)) ∧
    (preprocessTransitSecrets env cfg st refs).tr.singleCalls = [] ∧
    (preprocessTransitSecrets env cfg st refs).err = none := by
  have hk0 : cfg.transitBatchSize.toNat ≠ 0 := by omega
  have hcast : cfg.transitBatchSize = ((cfg.transitBatchSize.toNat : Nat) : Int) :=
    (Int.toNat_of_nonneg (by omega)).symm
  have hpag : paginate (uncachedSecrets st (collectSecretSet env refs)) cfg.transitBatchSize
      = .ok (chunks cfg.transitBatchSize.toNat (uncachedSecrets st (collectSecretSet env refs))) := by
    rw [hcast]
    exact paginate_eq_chunks _ (Nat.pos_of_ne_zero (by omega)) _
  have hne := chunks_ne_nil cfg.transitBatchSize.toNat hk0
    (uncachedSecrets st (collectSecretSet env refs))
  have hfc := fetchLoop_calls env cfg hkey
    (chunks cfg.transitBatchSize.toNat (uncachedSecrets st (collectSecretSet env refs))) st hne
  simp only [preprocessTransitSecrets, hpag]
  rcases hf : fetchLoop env cfg
      (chunks cfg.transitBatchSize.toNat (uncachedSecrets st (collectSecretSet env refs))) st
    with ⟨st1, calls, err⟩
  rw [hf] at hfc
  simp only at hfc
  rw [hfc.1, hfc.2]
  simp [Trace.nil]

theorem decryptTouches_app (t u : Trace) (c : String) :
    decryptTouches (Trace.app t u) c = decryptTouches t c + decryptTouches u c := by
  simp only [decryptTouches, Trace.app, List.map_append, List.sum_append, List.count_append]
  omega

theorem decryptTouches_nil (c : String) : decryptTouches Trace.nil c = 0 := rfl

theorem decryptTouches_calls (t : Trace) (c : String) :
    decryptTouches (Trace.calls t) c = decryptTouches t c := rfl

theorem decryptTouches_sink1 (n v c : String) :
    decryptTouches (Trace.sink1 n v) c = 0 := rfl

theorem collectInnerFold_mem (env : Env) (ms : List (String × String)) :
    ∀ (acc : List String) (m : String × String), m ∈ ms → env.isEncrypted m.2 = true →
      m.2 ∈ ms.foldl
        (fun acc2 m2 => if env.isEncrypted m2.2 then insertSet acc2 m2.2 else acc2) acc := by
  induction ms with
  | nil =>
    intro acc m hm _
    simp at hm
  | cons m0 rest ih =>
    intro acc m hm he
    simp only [List.foldl_cons]
    rcases List.mem_cons.mp hm with h | h
    · subst h
      apply collectInnerFold_mem_mono
      simp [he, insertSet_mem_self]
    · exact ih _ m h he

theorem foldl_collectStep_mem_capture (env : Env) (refs : List (String × String)) :
    ∀ (acc : List String) (q m : String × String),
      q ∈ refs → m ∈ findInlineBaoDelimiters q.2 → env.isEncrypted m.2 = true →
      m.2 ∈ refs.foldl (collectStep env) acc := by
  induction refs with
  | nil =>
    intro acc q m hq _ _
    simp at hq
  | cons q0 rest ih =>
    intro acc q m hq hm he
    simp only [List.foldl_cons]
    rcases List.mem_cons.mp hq with h | h
    · subst h
      apply foldl_collectStep_mem_mono
      unfold collectStep
      have hne : findInlineBaoDelimiters q.2 ≠ [] := by
        intro h0
        rw [h0] at hm
        simp at hm
      rw [if_pos hne]
      exact collectInnerFold_mem env _ acc m hm he
    · exact ih _ q m h hm he

theorem collectSecretSet_mem_capture (env : Env) (refs : List (String × String))
    (q m : String × String) (hq : q ∈ refs) (hm : m ∈ findInlineBaoDelimiters q.2)
    (he : env.isEncrypted m.2 = true) : m.2 ∈ collectSecretSet env refs := by
  rw [collectSecretSet_eq_foldl]
  exact foldl_collectStep_mem_capture env refs [] q m hq hm he

theorem count_uncached_cached_zero (st : InjSt) (set : List String) (c : String)
    (hc : (alLookup st.transitCache c).isSome) :
    (uncachedSecrets st set).count c = 0 := by
  apply List.count_eq_zero.mpr
  intro hmem
  unfold uncachedSecrets at hmem
  rw [List.mem_filter] at hmem
  have h2 := hmem.2
  simp only [Option.isNone_iff_eq_none] at h2
  rw [h2] at hc
  simp at hc

theorem mem_set_not_uncached_cached (st : InjSt) (set : List String) (c : String)
    (hset : c ∈ set) (hnc : c ∉ uncachedSecrets st set) :
    (alLookup st.transitCache c).isSome := by
  by_contra h
  apply hnc
  unfold uncachedSecrets
  rw [List.mem_filter]
  refine ⟨hset, ?_⟩
  simp only [Option.isNone_iff_eq_none]
  cases ho : alLookup st.transitCache c with
  | none => rfl
  | some w =>
    rw [ho] at h
    simp at h

theorem processBaoValue_cached (env : Env) (cfg : Config) (n : String) (u : Bool)
    (v1 : String) (st : InjSt) (c : String)
    (hc : (alLookup st.transitCache c).isSome) :
    decryptTouches (processBaoValue env cfg n u v1 st).2.1 c = 0 ∧
    (alLookup (processBaoValue env cfg n u v1 st).1.transitCache c).isSome := by
  unfold processBaoValue
  by_cases h1 : hasPreL v1 ['b', 'a', 'o', ':'] = true
  · rw [if_neg (fun h => h h1)]
    by_cases h2 : n = "BAO_TOKEN" ∧ trimPreL v1 ['b', 'a', 'o', ':'] = "login"
    · rw [if_pos h2]
      exact ⟨decryptTouches_sink1 n env.clientToken c, hc⟩
    · rw [if_neg h2]
      cases h3 : env.isEncrypted v1
      · rw [if_neg (by simp)]
        have h := resolvePathRef_calls env cfg n u (trimPreL v1 ['b', 'a', 'o', ':']) st
        constructor
        · simp [decryptTouches, h.2.1, h.2.2]
        · rw [h.1]
          exact hc
      · rw [if_pos rfl]
        by_cases h4 : cfg.transitKeyID = ""
        · rw [if_pos h4]
          exact ⟨decryptTouches_nil c, hc⟩
        · rw [if_neg h4]
          cases h5 : alLookup st.transitCache v1 with
          | some w =>
            simp only [h5]
            exact ⟨decryptTouches_sink1 n w c, hc⟩
          | none =>
            have hne : ¬ c = v1 := by
              intro he
              rw [he, h5] at hc
              simp at hc
            simp only [h5]
            cases h6 : env.decryptOne v1 with
            | error e =>
              by_cases hig : cfg.ignoreMissingSecrets = true <;>
                simp [hig, decryptTouches, Trace.single1, List.count_cons, hne, hc]
            | ok w =>
              constructor
              · simp [decryptTouches, Trace.app, Trace.single1, Trace.sink1,
                  List.count_cons, hne]
              · exact alLookup_alInsert_isSome _ _ _ _ hc
  · rw [if_pos h1]
    exact ⟨decryptTouches_sink1 n v1 c, hc⟩

theorem processPlain_cached (env : Env) (cfg : Config) (n v : String) (st : InjSt)
    (c : String) (hc : (alLookup st.transitCache c).isSome) :
    decryptTouches (processPlain env cfg n v st).2.1 c = 0 ∧
    (alLookup (processPlain env cfg n v st).1.transitCache c).isSome := by
  unfold processPlain
  exact processBaoValue_cached env cfg n _ _ st c hc

theorem inlineFold_cached (recurse : String → String → InjSt → InjSt × Trace × Option RunErr)
    (c : String)
    (hrec : ∀ (n v : String) (st' : InjSt), (alLookup st'.transitCache c).isSome →
      decryptTouches (recurse n v st').2.1 c = 0 ∧
      (alLookup (recurse n v st').1.transitCache c).isSome)
    (name : String) :
    ∀ (ms : List (String × String)) (value : String) (st : InjSt) (tr : Trace),
      (alLookup st.transitCache c).isSome →
      decryptTouches (inlineFold recurse name ms value st tr).2.2.1 c = decryptTouches tr c ∧
      (alLookup (inlineFold recurse name ms value st tr).2.1.transitCache c).isSome := by
  intro ms
  induction ms with
  | nil =>
    intro value st tr hc
    exact ⟨rfl, hc⟩
  | cons m rest ih =>
    intro value st tr hc
    have hr := hrec name m.2 st hc
    rcases hre : recurse name m.2 st with ⟨st1, tr1, e1⟩
    rw [hre] at hr
    simp only at hr
    simp only [inlineFold, hre]
    cases e1 with
    | some e =>
      refine ⟨?_, hr.2⟩
      show decryptTouches (Trace.app tr (Trace.calls tr1)) c = decryptTouches tr c
      rw [decryptTouches_app, decryptTouches_calls, hr.1]
      omega
    | none =>
      have hi := ih
        ((tr1.sinks.foldl (fun acc p => alInsert acc p.1 p.2)
            ([] : List (String × String))).foldl (fun v p => replaceAll v m.1 p.2) value)
        st1 (Trace.app tr (Trace.calls tr1)) hr.2
      refine ⟨?_, hi.2⟩
      rw [hi.1, decryptTouches_app, decryptTouches_calls, hr.1]
      omega

theorem processEntry_cached (env : Env) (cfg : Config)
    (recurse : String → String → InjSt → InjSt × Trace × Option RunErr) (c : String)
    (hrec : ∀ (n v : String) (st' : InjSt), (alLookup st'.transitCache c).isSome →
      decryptTouches (recurse n v st').2.1 c = 0 ∧
      (alLookup (recurse n v st').1.transitCache c).isSome)
    (n v : String) (st : InjSt) (hc : (alLookup st.transitCache c).isSome) :
    decryptTouches (processEntry env cfg recurse n v st).2.1 c = 0 ∧
    (alLookup (processEntry env cfg recurse n v st).1.transitCache c).isSome := by
  by_cases h1 : findInlineBaoDelimiters v ≠ []
  · have hif := inlineFold_cached recurse c hrec n (findInlineBaoDelimiters v) v st Trace.nil hc
    rcases hi : inlineFold recurse n (findInlineBaoDelimiters v) v st Trace.nil
      with ⟨val1, st1, tr1, e1⟩
    rw [hi] at hif
    simp only at hif
    simp only [processEntry, if_pos h1, hi]
    cases e1 with
    | some e =>
      refine ⟨?_, hif.2⟩
      show decryptTouches tr1 c = 0
      rw [hif.1]
      exact decryptTouches_nil c
    | none =>
      refine ⟨?_, hif.2⟩
      show decryptTouches (Trace.app tr1 (Trace.sink1 n val1)) c = 0
      rw [decryptTouches_app, hif.1, decryptTouches_nil, decryptTouches_sink1]
  · simp only [processEntry, if_neg h1]
    exact processPlain_cached env cfg n v st c hc

theorem mainLoop_cached (env : Env) (cfg : Config)
    (recurse : String → String → InjSt → InjSt × Trace × Option RunErr) (c : String)
    (hrec : ∀ (n v : String) (st' : InjSt), (alLookup st'.transitCache c).isSome →
      decryptTouches (recurse n v st').2.1 c = 0 ∧
      (alLookup (recurse n v st').1.transitCache c).isSome) :
    ∀ (lst : List (String × String)) (st : InjSt),
      (alLookup st.transitCache c).isSome →
      decryptTouches (mainLoopWith env cfg recurse lst st).2.1 c = 0 ∧
      (alLookup (mainLoopWith env cfg recurse lst st).1.transitCache c).isSome := by
  intro lst
  induction lst with
  | nil =>
    intro st hc
    exact ⟨decryptTouches_nil c, hc⟩
  | cons q rest ih =>
    intro st hc
    obtain ⟨n, v⟩ := q
    have hp := processEntry_cached env cfg recurse c hrec n v st hc
    rcases hpe : processEntry env cfg recurse n v st with ⟨st1, tr1, e1⟩
    rw [hpe] at hp
    simp only at hp
    simp only [mainLoopWith, hpe]
    cases e1 with
    | some e => exact ⟨hp.1, hp.2⟩
    | none =>
      have hi := ih st1 hp.2
      rcases hm : mainLoopWith env cfg recurse rest st1 with ⟨st2, tr2, e2⟩
      rw [hm] at hi
      simp only at hi
      simp only [hm]
      refine ⟨?_, hi.2⟩
      show decryptTouches (Trace.app tr1 tr2) c = 0
      rw [decryptTouches_app, hp.1, hi.1]

theorem run_cached (env : Env) (cfg : Config)
    (hkey : ¬ cfg.transitKeyID = "") (hb : 1 ≤ cfg.transitBatchSize)
    (hbatch : ∀ (l : List String) (c : String), c ∈ l →
      (alLookup (env.decryptBatch l).1 c).isSome) (c : String) :
    ∀ (fuel : Nat) (refs : List (String × String)) (st : InjSt),
      (alLookup st.transitCache c).isSome →
      decryptTouches (injectSecretsFromBao env cfg fuel refs st).tr c = 0 ∧
      (alLookup (injectSecretsFromBao env cfg fuel refs st).st.transitCache c).isSome := by
  intro fuel
  induction fuel with
  | zero =>
    intro refs st hc
    exact ⟨decryptTouches_nil c, hc⟩
  | succ fuel ih =>
    intro refs st hc
    have hk0 : cfg.transitBatchSize.toNat ≠ 0 := by omega
    have hps := preprocess_spec env cfg st refs hkey hb
    rcases hpre : preprocessTransitSecrets env cfg st refs with ⟨refs1, st1, tr1, err1⟩
    rw [hpre] at hps
    simp only at hps
    obtain ⟨hrefs1, hst1, htrb, htrs, herr1⟩ := hps
    subst herr1
    have hrun : injectSecretsFromBao env cfg (fuel + 1) refs st
        = ⟨(mainLoopWith env cfg (injRecurse env cfg fuel) refs1 st1).1,
           Trace.app tr1 (mainLoopWith env cfg (injRecurse env cfg fuel) refs1 st1).2.1,
           (mainLoopWith env cfg (injRecurse env cfg fuel) refs1 st1).2.2⟩ := by
      simp only [injectSecretsFromBao, hpre]
      rfl
    have ht1 : decryptTouches tr1 c = 0 := by
      simp only [decryptTouches, htrb, htrs]
      rw [count_flatten_eq c, chunks_flatten _ hk0, count_uncached_cached_zero st _ c hc]
      rfl
    have hc1 : (alLookup st1.transitCache c).isSome := by
      rw [hst1]
      exact fetchLoop_cache env cfg hkey hbatch _ st c (Or.inl hc)
    have hrec : ∀ (n v : String) (st' : InjSt), (alLookup st'.transitCache c).isSome →
        decryptTouches (injRecurse env cfg fuel n v st').2.1 c = 0 ∧
        (alLookup (injRecurse env cfg fuel n v st').1.transitCache c).isSome := by
      intro n v st' h
      exact ih [(n, v)] st' h
    have hm := mainLoop_cached env cfg (injRecurse env cfg fuel) c hrec refs1 st1 hc1
    rcases hml : mainLoopWith env cfg (injRecurse env cfg fuel) refs1 st1 with ⟨st2, tr2, e2⟩
    rw [hml] at hm
    simp only at hm
    rw [hrun, hml]
    refine ⟨?_, hm.2⟩
    show decryptTouches (Trace.app tr1 tr2) c = 0
    rw [decryptTouches_app, ht1, hm.1]

/-- C6 (amended): for a ciphertext-looking value appearing in the reference
mapping — as the whole value of an entry or nested inside one of its inline
spans, in particular when it appears in two or more entries — the transit
decrypt collaborator is handed that unique ciphertext at most once per
resolve call, provided every dispatched batch decrypt returns a plaintext
for each requested ciphertext: duplicates are deduplicated into a set,
already cached ciphertexts are subtracted before dispatch, and every later
lookup — the main loop's and those of nested inline resolutions, at any
depth — is served from the cache.  (Without the batch proviso the claim
fails: see the counterexample, where a failed batch is silently retried
one-by-one.) -/
theorem c6_unique_decrypt_amended (env : Env) (cfg : Config) (st : InjSt)
    (refs : List (String × String)) (fuel : Nat)
    (hkey : ¬ cfg.transitKeyID = "")
    (hb : 1 ≤ cfg.transitBatchSize)
    (hbatch : ∀ (l : List String) (c : String), c ∈ l →
      (alLookup (env.decryptBatch l).1 c).isSome) :
    ∀ c, env.isEncrypted c = true →
      (∃ q ∈ refs, (findInlineBaoDelimiters q.2 = [] ∧ q.2 = c) ∨
        (∃ m ∈ findInlineBaoDelimiters q.2, m.2 = c)) →
      decryptTouches (injectSecretsFromBao env cfg (fuel + 1) refs st).tr c ≤ 1 := by
  intro c henc happear
  have hk0 : cfg.transitBatchSize.toNat ≠ 0 := by omega
  have hset : c ∈ collectSecretSet env refs := by
    obtain ⟨q, hq, hcase⟩ := happear
    rcases hcase with ⟨hsp, hval⟩ | ⟨m, hm, hcap⟩
    · rw [← hval]
      exact collectSecretSet_mem env refs q.1 q.2 (by simpa using hq) hsp
        (by rw [hval]; exact henc)
    · rw [← hcap]
      exact collectSecretSet_mem_capture env refs q m hq hm (by rw [hcap]; exact henc)
  have hps := preprocess_spec env cfg st refs hkey hb
  rcases hpre : preprocessTransitSecrets env cfg st refs with ⟨refs1, st1, tr1, err1⟩
  rw [hpre] at hps
  simp only at hps
  obtain ⟨hrefs1, hst1, htrb, htrs, herr1⟩ := hps
  subst herr1
  have hrun : injectSecretsFromBao env cfg (fuel + 1) refs st
      = ⟨(mainLoopWith env cfg (injRecurse env cfg fuel) refs1 st1).1,
         Trace.app tr1 (mainLoopWith env cfg (injRecurse env cfg fuel) refs1 st1).2.1,
         (mainLoopWith env cfg (injRecurse env cfg fuel) refs1 st1).2.2⟩ := by
    simp only [injectSecretsFromBao, hpre]
    rfl
  have hcached : (alLookup st1.transitCache c).isSome := by
    rw [hst1]
    by_cases hu : c ∈ uncachedSecrets st (collectSecretSet env refs)
    · apply fetchLoop_cache env cfg hkey hbatch
      right
      rw [chunks_flatten _ hk0]
      exact hu
    · apply fetchLoop_cache env cfg hkey hbatch
      left
      exact mem_set_not_uncached_cached st _ c hset hu
  have hrec : ∀ (n v : String) (st' : InjSt), (alLookup st'.transitCache c).isSome →
      decryptTouches (injRecurse env cfg fuel n v st').2.1 c = 0 ∧
      (alLookup (injRecurse env cfg fuel n v st').1.transitCache c).isSome := by
    intro n v st' h
    exact run_cached env cfg hkey hb hbatch c fuel [(n, v)] st' h
  have hm := mainLoop_cached env cfg (injRecurse env cfg fuel) c hrec refs1 st1 hcached
  rcases hml : mainLoopWith env cfg (injRecurse env cfg fuel) refs1 st1 with ⟨st2, tr2, e2⟩
  rw [hml] at hm
  simp only at hm
  rw [hrun, hml]
  show decryptTouches (Trace.app tr1 tr2) c ≤ 1
  rw [decryptTouches_app, hm.1]
  have ht1 : decryptTouches tr1 c ≤ 1 := by
    simp only [decryptTouches, htrb, htrs]
    rw [count_flatten_eq c, chunks_flatten _ hk0]
    have hnodup : (uncachedSecrets st (collectSecretSet env refs)).Nodup :=
      List.Nodup.filter _ (collectSecretSet_nodup env refs)
    have hcnt := List.nodup_iff_count_le_one.mp hnodup c
    simpa using hcnt
  omega

theorem alLookup_map_self (l : List String) (w : String) (c : String) (hc : c ∈ l) :
    (alLookup (l.map (fun x => (x, w))) c).isSome := by
  induction l with
  | nil => simp at hc
  | cons x xs ih =>
    simp only [List.map_cons]
    rw [alLookup_cons]
    by_cases hx : x = c
    · simp [hx]
    · rcases List.mem_cons.mp hc with h | h
      · exact absurd h.symm hx
      · simp only [if_neg hx]
        exact ih h

theorem envAllOk_batch_total (l : List String) (c : String) (hc : c ∈ l) :
    (alLookup (envAllOk.decryptBatch l).1 c).isSome :=
  alLookup_map_self l "plain" c hc

theorem c6_unique_decrypt_amended_witness :
    (¬ cfg1.transitKeyID = "") ∧ (1 ≤ cfg1.transitBatchSize) ∧
    envAllOk.isEncrypted ctOk = true ∧
    (∃ q ∈ [("A", ctOk), ("B", c2val)], (findInlineBaoDelimiters q.2 = [] ∧ q.2 = ctOk) ∨
      (∃ m ∈ findInlineBaoDelimiters q.2, m.2 = ctOk)) ∧
    decryptTouches
      (injectSecretsFromBao envAllOk cfg1 2 [("A", ctOk), ("B", c2val)] initSt).tr ctOk ≤ 1 := by
  refine ⟨by decide, by decide, by decide, by decide, ?_⟩
  exact c6_unique_decrypt_amended envAllOk cfg1 initSt [("A", ctOk), ("B", c2val)] 1
    (by decide) (by decide) envAllOk_batch_total ctOk (by decide) (by decide)

/-- C5: for any positive batch size the pre-scan pagination splits the
uncached-ciphertext list into consecutive chunks whose concatenation is the
input, with every chunk but possibly the last of exactly batch size, and
the pre-scan dispatches exactly one batched decrypt RPC per chunk. -/
theorem c5_batch_chunking :
    ∀ (l : List String) (b : Int), 1 ≤ b →
      (∃ cs, paginate l b = .ok cs ∧ cs.flatten = l ∧
        (∀ ch ∈ cs.dropLast, ch.length = b.toNat) ∧ (∀ ch ∈ cs, ch ≠ [])) ∧
      (∀ (env : Env) (cfg : Config) (st : InjSt) (refs : List (String × String)),
        cfg.transitBatchSize = b → ¬ cfg.transitKeyID = "" →
        ∃ cs, paginate (uncachedSecrets st (collectSecretSet env refs)) b = .ok cs ∧
          (preprocessTransitSecrets env cfg st refs).tr.batchCalls = cs ∧
          (preprocessTransitSecrets env cfg st refs).err = none) := by
  intro l b hb
  constructor
  · have hb0 : 0 < b.toNat := by omega
    have hcast : b = ((b.toNat : Nat) : Int) := (Int.toNat_of_nonneg (by omega)).symm
    refine ⟨chunks b.toNat l, ?_, ?_, ?_, ?_⟩
    · rw [hcast]
      exact paginate_eq_chunks _ hb0 l
    · exact chunks_flatten _ (by omega) l
    · exact chunks_dropLast_length _ (by omega) l
    · exact chunks_ne_nil _ (by omega) l
  · intro env cfg st refs hbs hkey
    subst hbs
    have hps := preprocess_spec env cfg st refs hkey hb
    refine ⟨chunks cfg.transitBatchSize.toNat (uncachedSecrets st (collectSecretSet env refs)),
      ?_, hps.2.2.1, hps.2.2.2.2⟩
    have hcast : cfg.transitBatchSize = ((cfg.transitBatchSize.toNat : Nat) : Int) :=
      (Int.toNat_of_nonneg (by omega)).symm
    rw [hcast]
    exact paginate_eq_chunks _ (by omega) _

theorem c5_batch_chunking_witness :
    1 ≤ (2 : Int) ∧
    (∃ cs, paginate ["a", "b", "c"] 2 = .ok cs ∧ cs.flatten = ["a", "b", "c"] ∧
      (∀ ch ∈ cs.dropLast, ch.length = (2 : Int).toNat) ∧ (∀ ch ∈ cs, ch ≠ [])) :=
  ⟨by decide, (c5_batch_chunking ["a", "b", "c"] 2 (by decide)).1⟩
